import Mathlib

/-!
SCHED_OTHER_RR: a verification development of `sched_other_rr.c`

The scheduling class keeps the ready tasks of one CPU on a circular, doubly
linked kernel list (`rq->other_rr.queue`) threaded through the member
`other_rr_run_list` of every task.  The embedding below keeps that
representation: the state is a small heap of fields indexed by pointers, the
list primitives of `linux/list.h` are pointer updates, and the functions of the
file are state transformers over that heap.

Pointers.  The file converts between `struct list_head *` and
`struct task_struct *` in three ways: `&p->other_rr_run_list` (add the member
offset), `list_entry(l, struct task_struct, other_rr_run_list)` (subtract it)
and plain assignment (no adjustment).  A pointer is therefore a base object
together with a signed count of member offsets, which tells the three apart.

Machine integers.  `u64` and `unsigned long` values are naturals, with the
wrap-around `% 2^64` written out where the source computes.
-/

namespace OtherRR

/-- The objects a pointer can be based on: the null pointer, the two poison
values `list_del` leaves behind, the list head `rq->other_rr.queue`, and the
task structures, numbered. -/
inductive Base
  | null
  | poison1
  | poison2
  | queue
  | task (t : Nat)
deriving DecidableEq

/-- A pointer: the address of `base` plus `off` times
`offsetof(struct task_struct, other_rr_run_list)`.  The link is not the first
member of a task (`struct task_struct` begins with `state`), so different
counts are different addresses. -/
structure Ptr where
  base : Base
  off : Int
deriving DecidableEq

/-- `NULL`. -/
def NULL : Ptr := ⟨Base.null, 0⟩

/-- `LIST_POISON1` of `linux/poison.h`. -/
def LIST_POISON1 : Ptr := ⟨Base.poison1, 0⟩

/-- `LIST_POISON2` of `linux/poison.h`. -/
def LIST_POISON2 : Ptr := ⟨Base.poison2, 0⟩

/-- The task structure number `t`, as a `struct task_struct *`. -/
def task_ptr (t : Nat) : Ptr := ⟨Base.task t, 0⟩

/-- `&rq->other_rr.queue`. -/
def queue_head : Ptr := ⟨Base.queue, 0⟩

/-- `&p->other_rr_run_list`. -/
def run_list (p : Ptr) : Ptr := ⟨p.base, p.off + 1⟩

/-- `list_entry(l, struct task_struct, other_rr_run_list)`. -/
def list_entry (l : Ptr) : Ptr := ⟨l.base, l.off - 1⟩

/-- Store `v` at `a` in the field map `f`. -/
def store {α : Type} (f : Ptr → α) (a : Ptr) (v : α) : Ptr → α :=
  fun x => if x = a then v else f x

/-- The modulus of `u64` and `unsigned long` arithmetic. -/
def U64 : Nat := 2 ^ 64

/-- The modulus of `unsigned int` arithmetic. -/
def U32 : Nat := 2 ^ 32

/-- The run queue of one CPU together with the memory its pointers reach.
Each field of `struct list_head`, `struct sched_entity` and
`struct task_struct` that the file touches is a map from the pointer through
which it is accessed.  `other_rr_time_slice` is the configured quantum (a
global in the source), `charged` the calls made to `cpuacct_charge`, oldest
first.  `task_time_slice` is the time slice of a task, an `unsigned int` as
the time slices of the kernel are; `tast_time_slice` is the member of that
spelling, which the guard of `task_tick_other_rr` reads and which no function
of the file writes.  Both are declared with `struct task_struct`, outside the
file. -/
structure Rq where
  clock : Nat
  curr : Ptr
  nr_running : Nat
  other_rr_load_balance_head : Ptr
  other_rr_load_balance_curr : Ptr
  other_rr_time_slice : Nat
  next : Ptr → Ptr
  prev : Ptr → Ptr
  exec_start : Ptr → Nat
  sum_exec_runtime : Ptr → Nat
  exec_max : Ptr → Nat
  task_time_slice : Ptr → Nat
  tast_time_slice : Ptr → Nat
  need_resched : Ptr → Bool
  task_has_other_rr_policy : Ptr → Bool
  charged : List (Ptr × Nat)

/-! ## `linux/list.h` -/

/-- Modelled from the spec: the list primitives of `linux/list.h` are included
by the file but defined outside it; the tail-insert of the run queue's ordered
collection is the kernel's
`next->prev = new; new->next = next; new->prev = prev; prev->next = new`. -/
def __list_add (rq : Rq) (new prev next : Ptr) : Rq :=
  let rq := { rq with prev := store rq.prev next new }
  let rq := { rq with next := store rq.next new next }
  let rq := { rq with prev := store rq.prev new prev }
  { rq with next := store rq.next prev new }

/-- Modelled from the spec: `list_add_tail(new, head)` of `linux/list.h`,
`__list_add(new, head->prev, head)`. -/
def list_add_tail (rq : Rq) (new head : Ptr) : Rq :=
  __list_add rq new (rq.prev head) head

/-- Modelled from the spec: `__list_del(prev, next)` of `linux/list.h`,
`next->prev = prev; prev->next = next`. -/
def __list_del (rq : Rq) (prev next : Ptr) : Rq :=
  let rq := { rq with prev := store rq.prev next prev }
  { rq with next := store rq.next prev next }

/-- Modelled from the spec: `list_del(entry)` of `linux/list.h`, the removal of
a link from the ordered collection: unlink, then poison the entry's own
pointers. -/
def list_del (rq : Rq) (entry : Ptr) : Rq :=
  let rq := __list_del rq (rq.prev entry) (rq.next entry)
  let rq := { rq with next := store rq.next entry LIST_POISON1 }
  { rq with prev := store rq.prev entry LIST_POISON2 }

/-- Modelled from the spec: `list_move_tail(list, head)` of `linux/list.h`, the
move-to-tail of the ordered collection:
`__list_del(list->prev, list->next); list_add_tail(list, head)`. -/
def list_move_tail (rq : Rq) (list head : Ptr) : Rq :=
  let rq := __list_del rq (rq.prev list) (rq.next list)
  list_add_tail rq list head

/-! ## `sched_other_rr.c` -/

/-- The `u64` difference `rq->clock - curr->se.exec_start`, set to zero when it
is negative as an `s64`, that is when its top bit is set. -/
def delta_exec (clock exec_start : Nat) : Nat :=
  let d := (clock + U64 - exec_start) % U64
  if 2 ^ 63 ≤ d then 0 else d

/-- `update_curr_other_rr`: charge the time since `exec_start` to `rq->curr`
when it has the policy of this class.  `schedstat_set(var, val)` stores `val`
in `var`. -/
def update_curr_other_rr (rq : Rq) : Rq :=
  let curr := rq.curr
  if rq.task_has_other_rr_policy curr = false then rq
  else
    let d := delta_exec rq.clock (rq.exec_start curr)
    let rq := { rq with exec_max := store rq.exec_max curr (max (rq.exec_max curr) d) }
    let rq := { rq with
      sum_exec_runtime := store rq.sum_exec_runtime curr ((rq.sum_exec_runtime curr + d) % U64) }
    let rq := { rq with exec_start := store rq.exec_start curr rq.clock }
    { rq with charged := rq.charged ++ [(curr, d)] }

/-- `enqueue_task_other_rr`. -/
def enqueue_task_other_rr (rq : Rq) (p : Ptr) : Rq :=
  let rq := update_curr_other_rr rq
  let rq := list_add_tail rq (run_list p) queue_head
  { rq with nr_running := (rq.nr_running + 1) % U64 }

/-- `dequeue_task_other_rr`. -/
def dequeue_task_other_rr (rq : Rq) (p : Ptr) : Rq :=
  let rq := update_curr_other_rr rq
  let rq := list_del rq (run_list p)
  { rq with nr_running := (rq.nr_running + U64 - 1) % U64 }

/-- `requeue_task_other_rr`. -/
def requeue_task_other_rr (rq : Rq) (p : Ptr) : Rq :=
  list_move_tail rq (run_list p) queue_head

/-- `yield_task_other_rr`: the source passes `&rq->other_rr.queue` where
`requeue_task_other_rr` expects the task. -/
def yield_task_other_rr (rq : Rq) : Rq :=
  requeue_task_other_rr rq queue_head

/-- `pick_next_task_other_rr`: `queue` is the list head of the run queue,
`next = queue->next` is assigned to the task pointer as it is (no
`list_entry`), `exec_start` is stored through it, and it is returned. -/
def pick_next_task_other_rr (rq : Rq) : Ptr × Rq :=
  let queue := queue_head
  let next := rq.next queue
  let rq := { rq with exec_start := store rq.exec_start next rq.clock }
  (next, rq)

/-- `put_prev_task_other_rr`. -/
def put_prev_task_other_rr (rq : Rq) (p : Ptr) : Rq :=
  let rq := update_curr_other_rr rq
  { rq with exec_start := store rq.exec_start p 0 }

/-- `load_balance_start_other_rr`. -/
def load_balance_start_other_rr (rq : Rq) : Ptr × Rq :=
  let head := queue_head
  let curr := rq.prev head
  let p := list_entry curr
  let curr := rq.prev curr
  let rq := { rq with other_rr_load_balance_head := head }
  let rq := { rq with other_rr_load_balance_curr := curr }
  (p, rq)

/-- `load_balance_next_other_rr`. -/
def load_balance_next_other_rr (rq : Rq) : Ptr × Rq :=
  let curr := rq.other_rr_load_balance_curr
  let p := list_entry curr
  let curr := rq.prev curr
  let rq := { rq with other_rr_load_balance_curr := curr }
  (p, rq)

/-- `task_tick_other_rr`.  The guard of the decrement reads
`p->tast_time_slice`, the decrement and the refill write `p->task_time_slice`;
the decrement of an `unsigned int` wraps.  The local `quantum` of the source is
not used. -/
def task_tick_other_rr (rq : Rq) (p : Ptr) : Rq :=
  let rq := update_curr_other_rr rq
  if rq.other_rr_time_slice ≠ 0 then
    if rq.tast_time_slice p ≠ 0 then
      { rq with
        task_time_slice := store rq.task_time_slice p ((rq.task_time_slice p + U32 - 1) % U32) }
    else
      let rq := { rq with task_time_slice := store rq.task_time_slice p rq.other_rr_time_slice }
      let rq := { rq with need_resched := store rq.need_resched p true }
      requeue_task_other_rr rq p
  else rq

/-- `set_curr_task_other_rr`. -/
def set_curr_task_other_rr (rq : Rq) : Rq :=
  { rq with exec_start := store rq.exec_start rq.curr rq.clock }

/-! ## The ordered collection represented by the heap -/

/-- The links `l` lie, in this order, strictly between `a` and `b`: following
`next` from `a` runs through `l` to `b`, and `prev` leads back. -/
def Linked (nx pv : Ptr → Ptr) : Ptr → List Ptr → Ptr → Prop
  | a, [], b => nx a = b ∧ pv b = a
  | a, x :: xs, b => nx a = x ∧ pv x = a ∧ Linked nx pv x xs b

instance Linked.decidable (nx pv : Ptr → Ptr) :
    ∀ (a : Ptr) (l : List Ptr) (b : Ptr), Decidable (Linked nx pv a l b)
  | a, [], b => inferInstanceAs (Decidable (nx a = b ∧ pv b = a))
  | a, x :: xs, b =>
    have := Linked.decidable nx pv x xs b
    inferInstanceAs (Decidable (nx a = x ∧ pv x = a ∧ Linked nx pv x xs b))

/-- The links of the tasks numbered `q`. -/
def links (q : List Nat) : List Ptr := q.map (fun t => run_list (task_ptr t))

/-- The ordered collection of the run queue is `q`: the circular list at
`rq->other_rr.queue` consists of the links of the tasks `q`, head first, each
task once. -/
def IsQueue (rq : Rq) (q : List Nat) : Prop :=
  q.Nodup ∧ Linked rq.next rq.prev queue_head (links q) queue_head

instance IsQueue.decidable (rq : Rq) (q : List Nat) : Decidable (IsQueue rq q) :=
  inferInstanceAs (Decidable (_ ∧ _))

/-- A run queue with no task: the list head points to itself, the counter is
zero, no task has run. -/
def empty_rq (quantum : Nat) : Rq where
  clock := 0
  curr := NULL
  nr_running := 0
  other_rr_load_balance_head := NULL
  other_rr_load_balance_curr := NULL
  other_rr_time_slice := quantum
  next := fun _ => queue_head
  prev := fun _ => queue_head
  exec_start := fun _ => 0
  sum_exec_runtime := fun _ => 0
  exec_max := fun _ => 0
  task_time_slice := fun _ => 0
  tast_time_slice := fun _ => 0
  need_resched := fun _ => false
  task_has_other_rr_policy := fun p =>
    decide (p.off = 0) && (match p.base with | Base.task _ => true | _ => false)
  charged := []

/-! ## Sequences of calls -/

/-- A call of one of the three queue mutators, on the task numbered `t`. -/
inductive Op
  | enqueue (t : Nat)
  | dequeue (t : Nat)
  | requeue (t : Nat)
deriving DecidableEq

/-- The effect of one call on the run queue. -/
def Op.apply (rq : Rq) : Op → Rq
  | Op.enqueue t => enqueue_task_other_rr rq (task_ptr t)
  | Op.dequeue t => dequeue_task_other_rr rq (task_ptr t)
  | Op.requeue t => requeue_task_other_rr rq (task_ptr t)

/-- The run queue after a sequence of calls, first call first. -/
def run_ops (rq : Rq) : List Op → Rq
  | [] => rq
  | op :: ops => run_ops (op.apply rq) ops

/-- The contract of the callers, in the words of the specification: Enqueue is
called on a task that is not in the collection and puts it at the tail,
Dequeue and Requeue are called on a member, which is removed, respectively
moved to the tail.  The result is `none` when the call breaks the contract. -/
def Op.collection (q : List Nat) : Op → Option (List Nat)
  | Op.enqueue t => if t ∈ q then none else some (q ++ [t])
  | Op.dequeue t => if t ∈ q then some (q.erase t) else none
  | Op.requeue t => if t ∈ q then some (q.erase t ++ [t]) else none

/-- The collection after a sequence of calls that all keep the contract. -/
def collection_after (q : List Nat) : List Op → Option (List Nat)
  | [] => some q
  | op :: ops =>
    match op.collection q with
    | none => none
    | some q1 => collection_after q1 ops

/-- Timer ticks for the task `p`, one for each clock value of the list: the
clock is advanced to the value, then `task_tick_other_rr` runs. -/
def tick_seq (rq : Rq) (p : Ptr) : List Nat → Rq
  | [] => rq
  | c :: cs => tick_seq (task_tick_other_rr { rq with clock := c } p) p cs

/-- Two tasks, 1 then 2, enqueued on the empty queue with quantum 2; the clock
then stands at 5. -/
def two_task_rq : Rq :=
  { enqueue_task_other_rr (enqueue_task_other_rr (empty_rq 2) (task_ptr 1)) (task_ptr 2) with
    clock := 5 }

/-- One task, number 1, enqueued on the empty queue with quantum 2; it is the
running task and its time slice has just been refilled to the quantum.  The
member read by the guard of the tick handler holds the same value. -/
def one_task_rq : Rq :=
  { enqueue_task_other_rr (empty_rq 2) (task_ptr 1) with
    curr := task_ptr 1
    task_time_slice := store (fun _ => 0) (task_ptr 1) 2
    tast_time_slice := store (fun _ => 0) (task_ptr 1) 2 }

/-- Tasks 1, 2, 3 enqueued in this order on the empty queue. -/
def three_task_rq (quantum : Nat) : Rq :=
  enqueue_task_other_rr
    (enqueue_task_other_rr (enqueue_task_other_rr (empty_rq quantum) (task_ptr 1)) (task_ptr 2))
    (task_ptr 3)

/-- The running task 1 started at `2^63 + 1`; the clock reads 0. -/
def skew_rq : Rq :=
  { empty_rq 2 with
    curr := task_ptr 1
    exec_start := store (fun _ => 0) (task_ptr 1) (2 ^ 63 + 1) }

/-- The running task 1 started at 100 and has run for 7 so far; the clock
reads 130. -/
def running_rq : Rq :=
  { empty_rq 2 with
    clock := 130
    curr := task_ptr 1
    exec_start := store (fun _ => 0) (task_ptr 1) 100
    sum_exec_runtime := store (fun _ => 0) (task_ptr 1) 7 }

/-- The running task 1 started at 500 with 7 run so far and a largest delta of
3; the clock reads 130, earlier than the start. -/
def backward_rq : Rq :=
  { empty_rq 2 with
    clock := 130
    curr := task_ptr 1
    exec_start := store (fun _ => 0) (task_ptr 1) 500
    sum_exec_runtime := store (fun _ => 0) (task_ptr 1) 7
    exec_max := store (fun _ => 0) (task_ptr 1) 3 }

/-- The clock values of `n` ticks that are `d` apart, the first one `d` after
`c0`: `c0 + d`, `c0 + 2 * d`, ..., `c0 + n * d`. -/
def tick_clocks (c0 d n : Nat) : List Nat :=
  (List.range n).map (fun i => c0 + (i + 1) * d)

/-! ## Passes of the load balancer -/

/-- The tasks returned by `m` successive calls of `load_balance_next_other_rr`,
first call first, and the run queue after them. -/
def lb_nexts (rq : Rq) : Nat → List Ptr × Rq
  | 0 => ([], rq)
  | m + 1 =>
    let r := load_balance_next_other_rr rq
    let rest := lb_nexts r.2 m
    (r.1 :: rest.1, rest.2)

/-- The tasks returned by the first `m` calls of a pass, one call of
`load_balance_start_other_rr` followed by `m - 1` calls of
`load_balance_next_other_rr`, and the run queue after them. -/
def lb_pass (rq : Rq) : Nat → List Ptr × Rq
  | 0 => ([], rq)
  | m + 1 =>
    let r := load_balance_start_other_rr rq
    let rest := lb_nexts r.2 m
    (r.1 :: rest.1, rest.2)

/-- A pass in which the balancer takes away the task returned by call number
`k`: the first `k` calls are made, the task returned last is dequeued with
`dequeue_task_other_rr`, and `m` more calls of `load_balance_next_other_rr`
follow.  The result lists the tasks returned by all the calls. -/
def lb_pass_removing (rq : Rq) (k m : Nat) : List Ptr :=
  let first := lb_pass rq k
  match first.1.getLast? with
  | none => first.1
  | some p => first.1 ++ (lb_nexts (dequeue_task_other_rr first.2 p) m).1

/-- The links met by following `prev` from `c`, `c` included, `m` of them. -/
def walk_prev (pv : Ptr → Ptr) : Ptr → Nat → List Ptr
  | _, 0 => []
  | c, m + 1 => c :: walk_prev pv (pv c) m

/-- The link reached from `c` by `m` steps along `prev`. -/
def cursor_after (pv : Ptr → Ptr) : Ptr → Nat → Ptr
  | c, 0 => c
  | c, m + 1 => cursor_after pv (pv c) m

/-- Tasks 1 to 5 enqueued in this order on the empty queue. -/
def five_task_rq : Rq :=
  enqueue_task_other_rr (enqueue_task_other_rr (three_task_rq 2) (task_ptr 4)) (task_ptr 5)

/-- Tasks 1 and 2 on the queue; task 1 runs since clock 100 with 7 run so far,
and the clock reads 130. -/
def stopping_rq : Rq :=
  { two_task_rq with
    clock := 130
    curr := task_ptr 1
    exec_start := store (fun _ => 0) (task_ptr 1) 100
    sum_exec_runtime := store (fun _ => 0) (task_ptr 1) 7 }

/-- Task 1 alone on the queue and running, quantum 2, with one tick left of
its time slice.  The member read by the guard of the tick handler holds the
same value. -/
def last_tick_rq : Rq :=
  { one_task_rq with
    task_time_slice := store (fun _ => 0) (task_ptr 1) 1
    tast_time_slice := store (fun _ => 0) (task_ptr 1) 1 }

/-! ## Links and segments -/

theorem store_same {α : Type} (f : Ptr → α) (a : Ptr) (v : α) : store f a v a = v := by
  simp [store]

theorem store_other {α : Type} (f : Ptr → α) {a x : Ptr} (v : α) (h : x ≠ a) :
    store f a v x = f x := by
  simp [store, h]

theorem Linked.frame {nx pv nx1 pv1 : Ptr → Ptr} :
    ∀ {l : List Ptr} {a b : Ptr}, Linked nx pv a l b →
      (∀ x ∈ a :: l, nx1 x = nx x) → (∀ x ∈ l ++ [b], pv1 x = pv x) →
      Linked nx1 pv1 a l b
  | [], a, b, h, hn, hp => by
    obtain ⟨h1, h2⟩ := h
    exact ⟨by rw [hn a (by simp), h1], by rw [hp b (by simp), h2]⟩
  | x :: xs, a, b, h, hn, hp => by
    obtain ⟨h1, h2, h3⟩ := h
    refine ⟨by rw [hn a (by simp), h1], by rw [hp x (by simp), h2], ?_⟩
    exact Linked.frame h3 (fun y hy => hn y (List.mem_cons_of_mem _ hy))
      (fun y hy => hp y (by simp only [List.cons_append]; exact List.mem_cons_of_mem _ hy))

theorem Linked.append_cons {nx pv : Ptr → Ptr} :
    ∀ {l1 : List Ptr} {a x : Ptr} {l2 : List Ptr} {b : Ptr},
      Linked nx pv a (l1 ++ x :: l2) b ↔ Linked nx pv a l1 x ∧ Linked nx pv x l2 b
  | [], a, x, l2, b => by
    simp only [List.nil_append, Linked]
    tauto
  | y :: ys, a, x, l2, b => by
    have ih := @Linked.append_cons nx pv ys y x l2 b
    show nx a = y ∧ pv y = a ∧ Linked nx pv y (ys ++ x :: l2) b ↔
      (nx a = y ∧ pv y = a ∧ Linked nx pv y ys x) ∧ Linked nx pv x l2 b
    rw [ih]
    tauto

theorem Linked.prev_end {nx pv : Ptr → Ptr} :
    ∀ {l : List Ptr} {a b : Ptr}, Linked nx pv a l b → pv b = l.getLastD a
  | [], _, _, h => h.2
  | x :: xs, _, _, h => by
    rw [List.getLastD_cons]
    exact Linked.prev_end h.2.2

theorem getLastD_mem (l : List Ptr) (a : Ptr) : l.getLastD a ∈ a :: l := by
  induction l generalizing a with
  | nil => simp
  | cons x xs ih =>
    rw [List.getLastD_cons]
    exact List.mem_cons_of_mem _ (ih x)

/-- Redirecting the end of a segment: the last link gets `c` as its successor
and `c` gets the last link as its predecessor. -/
theorem Linked.retarget {nx pv : Ptr → Ptr} (c : Ptr) :
    ∀ {l : List Ptr} {a b : Ptr}, Linked nx pv a l b → (a :: l).Nodup → c ∉ l →
      Linked (store nx (l.getLastD a) c) (store pv c (l.getLastD a)) a l c
  | [], a, b, _, _, _ => by
    exact ⟨store_same _ _ _, store_same _ _ _⟩
  | x :: xs, a, b, h, hnd, hc => by
    obtain ⟨h1, h2, h3⟩ := h
    have hxs : (x :: xs).Nodup := (List.nodup_cons.1 hnd).2
    have ha : a ∉ x :: xs := (List.nodup_cons.1 hnd).1
    have hlast : xs.getLastD x ∈ x :: xs := getLastD_mem xs x
    rw [List.getLastD_cons]
    refine ⟨?_, ?_, Linked.retarget c h3 hxs (fun hm => hc (List.mem_cons_of_mem _ hm))⟩
    · have hne : a ≠ xs.getLastD x := fun e => ha (by rw [e]; exact hlast)
      rw [store_other _ _ hne, h1]
    · have hne : x ≠ c := fun e => hc (by rw [← e]; exact List.mem_cons_self _ _)
      rw [store_other _ _ hne, h2]

/-- The heap determines the links between two ends. -/
theorem Linked.segment_unique {nx pv : Ptr → Ptr} :
    ∀ {l l1 : List Ptr} {a b : Ptr}, Linked nx pv a l b → Linked nx pv a l1 b →
      b ∉ l → b ∉ l1 → l = l1
  | [], [], _, _, _, _, _, _ => rfl
  | [], x :: xs, _, _, h, h1, _, hb1 => by
    exfalso
    apply hb1
    rw [← h.1, h1.1]
    exact List.mem_cons_self _ _
  | x :: xs, [], _, _, h, h1, hb, _ => by
    exfalso
    apply hb
    rw [← h1.1, h.1]
    exact List.mem_cons_self _ _
  | x :: xs, y :: ys, _, _, h, h1, hb, hb1 => by
    have e : x = y := by rw [← h.1, h1.1]
    subst e
    have := Linked.segment_unique h.2.2 h1.2.2 (fun hm => hb (List.mem_cons_of_mem _ hm))
      (fun hm => hb1 (List.mem_cons_of_mem _ hm))
    rw [this]

/-- Tail insertion on a well-formed circular list appends the new link. -/
theorem list_add_tail_linked (rq : Rq) (l : List Ptr) (new head : Ptr)
    (h : Linked rq.next rq.prev head l head)
    (hnd : (head :: l).Nodup) (hnew : new ∉ head :: l) :
    Linked (list_add_tail rq new head).next (list_add_tail rq new head).prev
      head (l ++ [new]) head := by
  have hlast : rq.prev head = l.getLastD head := Linked.prev_end h
  have hmem : l.getLastD head ∈ head :: l := getLastD_mem l head
  have hnl : new ∉ l := fun hm => hnew (List.mem_cons_of_mem _ hm)
  have hnh : new ≠ head := fun e => hnew (by rw [e]; exact List.mem_cons_self _ _)
  have hhl : head ∉ l := (List.nodup_cons.1 hnd).1
  show Linked (store (store rq.next new head) (rq.prev head) new)
    (store (store rq.prev head new) new (rq.prev head)) head (l ++ [new]) head
  rw [hlast, Linked.append_cons]
  constructor
  · refine Linked.frame (Linked.retarget new h hnd hnl) ?_ ?_
    · intro x hx
      by_cases hxl : x = l.getLastD head
      · rw [hxl, store_same, store_same]
      · have hxn : x ≠ new := fun e => hnew (by rw [← e]; exact hx)
        rw [store_other _ _ hxl, store_other _ _ hxl, store_other _ _ hxn]
    · intro x hx
      by_cases hxn : x = new
      · rw [hxn, store_same, store_same]
      · have hxh : x ≠ head := by
          intro e
          rcases List.mem_append.1 hx with hm | hm
          · exact hhl (by rw [← e]; exact hm)
          · exact hxn (by simpa using hm)
        rw [store_other _ _ hxn, store_other _ _ hxn, store_other _ _ hxh]
  · refine ⟨?_, ?_⟩
    · have hne : new ≠ l.getLastD head := fun e => hnew (by rw [e]; exact hmem)
      rw [store_other _ _ hne, store_same]
    · rw [store_other _ _ (Ne.symm hnh), store_same]

/-- Unlinking a member of a well-formed circular list removes exactly its
link. -/
theorem list_unlink_linked (rq : Rq) (l1 l2 : List Ptr) (e head : Ptr)
    (h : Linked rq.next rq.prev head (l1 ++ e :: l2) head)
    (hnd : (head :: (l1 ++ e :: l2)).Nodup) :
    Linked (__list_del rq (rq.prev e) (rq.next e)).next
      (__list_del rq (rq.prev e) (rq.next e)).prev head (l1 ++ l2) head := by
  obtain ⟨h1, h2⟩ := Linked.append_cons.1 h
  have hP : rq.prev e = l1.getLastD head := Linked.prev_end h1
  have hmem : l1.getLastD head ∈ head :: l1 := getLastD_mem l1 head
  have hnd1 : (head :: l1).Nodup := by
    simp only [List.nodup_cons, List.nodup_append, List.mem_append, List.mem_cons] at hnd ⊢
    tauto
  show Linked (store rq.next (rq.prev e) (rq.next e)) (store rq.prev (rq.next e) (rq.prev e))
    head (l1 ++ l2) head
  rw [hP]
  cases l2 with
  | nil =>
    have hN : rq.next e = head := h2.1
    rw [hN, List.append_nil]
    exact Linked.retarget head h1 hnd1 (List.nodup_cons.1 hnd1).1
  | cons y ys =>
    obtain ⟨hN, _, h3⟩ := h2
    rw [hN, Linked.append_cons]
    have hy1 : y ∉ l1 := by
      simp only [List.nodup_cons, List.nodup_append, List.mem_append, List.mem_cons] at hnd
      intro hm
      exact hnd.2.2.2 hm (by simp)
    refine ⟨Linked.retarget y h1 hnd1 hy1, Linked.frame h3 ?_ ?_⟩
    · intro x hx
      have hne : x ≠ l1.getLastD head := by
        intro e1
        rw [e1] at hx
        simp only [List.nodup_cons, List.nodup_append, List.mem_append, List.mem_cons] at hnd hmem hx
        rcases hmem with hm | hm
        · rw [hm] at hx
          exact hnd.1 (Or.inr (Or.inr hx))
        · exact hnd.2.2.2 hm (List.mem_cons_of_mem _ (List.mem_cons.2 hx))
      rw [store_other _ _ hne]
    · intro x hx
      have hne : x ≠ y := by
        intro e1
        rw [e1] at hx
        simp only [List.nodup_cons, List.nodup_append, List.mem_append, List.mem_cons,
          List.mem_singleton] at hnd hx
        rcases hx with hm | hm
        · exact hnd.2.2.1.2.1 hm
        · simp only [List.not_mem_nil, or_false] at hm
          exact hnd.1 (Or.inr (Or.inr (Or.inl hm.symm)))
      rw [store_other _ _ hne]

/-! ## The queue mutators on the ordered collection -/

theorem run_list_task_ptr_injective {t u : Nat}
    (h : run_list (task_ptr t) = run_list (task_ptr u)) : t = u := by
  simp only [run_list, task_ptr, Ptr.mk.injEq, Base.task.injEq] at h
  exact h.1

theorem mem_links {t : Nat} {q : List Nat} : run_list (task_ptr t) ∈ links q ↔ t ∈ q := by
  constructor
  · intro h
    obtain ⟨u, hu, e⟩ := List.mem_map.1 h
    rw [run_list_task_ptr_injective e] at hu
    exact hu
  · intro h
    exact List.mem_map.2 ⟨t, h, rfl⟩

theorem queue_head_not_mem_links (q : List Nat) : queue_head ∉ links q := by
  intro h
  obtain ⟨u, _, e⟩ := List.mem_map.1 h
  simp [run_list, task_ptr, queue_head] at e

theorem links_nodup {q : List Nat} (h : q.Nodup) : (queue_head :: links q).Nodup := by
  refine List.nodup_cons.2 ⟨queue_head_not_mem_links q, ?_⟩
  exact List.Nodup.map (fun _ _ e => run_list_task_ptr_injective e) h

/-- The ordered collection of a run queue is determined by its heap. -/
theorem IsQueue.collection_unique {rq : Rq} {q q1 : List Nat} (h : IsQueue rq q) (h1 : IsQueue rq q1) :
    q = q1 := by
  have e : links q = links q1 :=
    Linked.segment_unique h.2 h1.2 (queue_head_not_mem_links q) (queue_head_not_mem_links q1)
  exact List.map_injective_iff.2 (fun _ _ e1 => run_list_task_ptr_injective e1) e

theorem links_append (q r : List Nat) : links (q ++ r) = links q ++ links r := by
  simp [links]

theorem update_curr_next (rq : Rq) : (update_curr_other_rr rq).next = rq.next := by
  by_cases h : rq.task_has_other_rr_policy rq.curr = false <;> simp [update_curr_other_rr, h]

theorem update_curr_prev (rq : Rq) : (update_curr_other_rr rq).prev = rq.prev := by
  by_cases h : rq.task_has_other_rr_policy rq.curr = false <;> simp [update_curr_other_rr, h]

theorem update_curr_nr_running (rq : Rq) :
    (update_curr_other_rr rq).nr_running = rq.nr_running := by
  by_cases h : rq.task_has_other_rr_policy rq.curr = false <;> simp [update_curr_other_rr, h]

theorem update_curr_isQueue {rq : Rq} {q : List Nat} (h : IsQueue rq q) :
    IsQueue (update_curr_other_rr rq) q := by
  unfold IsQueue
  rw [update_curr_next, update_curr_prev]
  exact h

theorem split_erase {q : List Nat} {t : Nat} (hnd : q.Nodup) (ht : t ∈ q) :
    ∃ l1 l2, q = l1 ++ t :: l2 ∧ q.erase t = l1 ++ l2 := by
  obtain ⟨l1, l2, e⟩ := List.append_of_mem ht
  refine ⟨l1, l2, e, ?_⟩
  subst e
  have h1 : t ∉ l1 := by
    intro hm
    have := (List.nodup_append.1 hnd).2.2
    exact this hm (List.mem_cons_self _ _)
  rw [List.erase_append_right _ h1, List.erase_cons_head]

/-- The list part of Enqueue: the link of a task not on the queue goes to the
tail. -/
theorem list_add_tail_isQueue {rq : Rq} {q : List Nat} {t : Nat}
    (h : IsQueue rq q) (ht : t ∉ q) :
    IsQueue (list_add_tail rq (run_list (task_ptr t)) queue_head) (q ++ [t]) := by
  obtain ⟨hnd, hl⟩ := h
  refine ⟨List.Nodup.append hnd (List.nodup_singleton t) (by simpa using ht), ?_⟩
  have hnew : run_list (task_ptr t) ∉ queue_head :: links q := by
    intro hm
    rcases List.mem_cons.1 hm with e | hm
    · simp [run_list, task_ptr, queue_head] at e
    · exact ht (mem_links.1 hm)
  have := list_add_tail_linked rq (links q) (run_list (task_ptr t)) queue_head hl
    (links_nodup hnd) hnew
  rw [links_append]
  exact this

/-- The list part of Requeue and of Dequeue: unlinking a member. -/
theorem list_unlink_isQueue {rq : Rq} {q : List Nat} {t : Nat}
    (h : IsQueue rq q) (ht : t ∈ q) :
    IsQueue (__list_del rq (rq.prev (run_list (task_ptr t))) (rq.next (run_list (task_ptr t))))
      (q.erase t) := by
  obtain ⟨hnd, hl⟩ := h
  refine ⟨hnd.erase t, ?_⟩
  obtain ⟨l1, l2, e, he⟩ := split_erase hnd ht
  rw [he, links_append]
  have hl2 : Linked rq.next rq.prev queue_head
      (links l1 ++ run_list (task_ptr t) :: links l2) queue_head := by
    have := hl
    rw [e, links_append] at this
    exact this
  have hnd2 : (queue_head :: (links l1 ++ run_list (task_ptr t) :: links l2)).Nodup := by
    have := links_nodup hnd
    rw [e, links_append] at this
    exact this
  exact list_unlink_linked rq (links l1) (links l2) (run_list (task_ptr t)) queue_head hl2 hnd2

theorem enqueue_isQueue {rq : Rq} {q : List Nat} {t : Nat}
    (h : IsQueue rq q) (ht : t ∉ q) :
    IsQueue (enqueue_task_other_rr rq (task_ptr t)) (q ++ [t]) :=
  list_add_tail_isQueue (update_curr_isQueue h) ht

theorem requeue_isQueue {rq : Rq} {q : List Nat} {t : Nat}
    (h : IsQueue rq q) (ht : t ∈ q) :
    IsQueue (requeue_task_other_rr rq (task_ptr t)) (q.erase t ++ [t]) := by
  have hnd : q.Nodup := h.1
  exact list_add_tail_isQueue (list_unlink_isQueue h ht) (fun hm => (List.Nodup.mem_erase_iff hnd).1 hm |>.1 rfl)

theorem dequeue_isQueue {rq : Rq} {q : List Nat} {t : Nat}
    (h : IsQueue rq q) (ht : t ∈ q) :
    IsQueue (dequeue_task_other_rr rq (task_ptr t)) (q.erase t) := by
  have hnd : q.Nodup := h.1
  have h1 := list_unlink_isQueue (update_curr_isQueue h) ht
  refine ⟨h1.1, ?_⟩
  have hne : run_list (task_ptr t) ∉ queue_head :: links (q.erase t) := by
    intro hm
    rcases List.mem_cons.1 hm with e | hm
    · simp [run_list, task_ptr, queue_head] at e
    · exact ((List.Nodup.mem_erase_iff hnd).1 (mem_links.1 hm)).1 rfl
  refine Linked.frame h1.2 ?_ ?_
  · intro x hx
    have hxe : x ≠ run_list (task_ptr t) := fun e => hne (by rw [← e]; exact hx)
    show store _ _ _ x = _
    rw [store_other _ _ hxe]
  · intro x hx
    have hxe : x ≠ run_list (task_ptr t) := by
      intro e
      rcases List.mem_append.1 hx with hm | hm
      · exact hne (by rw [← e]; exact List.mem_cons_of_mem _ hm)
      · exact hne (by rw [← e]; simp at hm; rw [hm]; exact List.mem_cons_self _ _)
    show store _ _ _ x = _
    rw [store_other _ _ hxe]

/-! ## The count invariant -/

theorem list_add_tail_nr_running (rq : Rq) (new head : Ptr) :
    (list_add_tail rq new head).nr_running = rq.nr_running := rfl

theorem list_unlink_nr_running (rq : Rq) (a b : Ptr) :
    (__list_del rq a b).nr_running = rq.nr_running := rfl

theorem enqueue_nr_running (rq : Rq) (p : Ptr) :
    (enqueue_task_other_rr rq p).nr_running = (rq.nr_running + 1) % U64 := by
  show ((update_curr_other_rr rq).nr_running + 1) % U64 = _
  rw [update_curr_nr_running]

theorem dequeue_nr_running (rq : Rq) (p : Ptr) :
    (dequeue_task_other_rr rq p).nr_running = (rq.nr_running + U64 - 1) % U64 := by
  show ((update_curr_other_rr rq).nr_running + U64 - 1) % U64 = _
  rw [update_curr_nr_running]

theorem requeue_nr_running (rq : Rq) (p : Ptr) :
    (requeue_task_other_rr rq p).nr_running = rq.nr_running := rfl

theorem length_erase_succ {q : List Nat} {t : Nat} (ht : t ∈ q) :
    (q.erase t).length + 1 = q.length := by
  have hpos : 0 < q.length := List.length_pos_of_mem ht
  rw [List.length_erase_of_mem ht]
  omega

/-- One call that keeps the contract keeps the invariant and yields the
collection the contract names. -/
theorem Op.apply_invariant {rq : Rq} {q q1 : List Nat} {op : Op}
    (hq : IsQueue rq q) (hn : rq.nr_running = q.length) (hb : q.length + 1 < U64)
    (hop : op.collection q = some q1) :
    IsQueue (op.apply rq) q1 ∧ (op.apply rq).nr_running = q1.length ∧
      q1.length ≤ q.length + 1 := by
  cases op with
  | enqueue t =>
    by_cases ht : t ∈ q
    · simp [Op.collection, ht] at hop
    · simp only [Op.collection, ht, if_false, Option.some.injEq] at hop
      subst hop
      refine ⟨enqueue_isQueue hq ht, ?_, by simp⟩
      show (enqueue_task_other_rr rq (task_ptr t)).nr_running = _
      rw [enqueue_nr_running, hn, List.length_append, List.length_singleton,
        Nat.mod_eq_of_lt hb]
  | dequeue t =>
    by_cases ht : t ∈ q
    · simp only [Op.collection, ht, if_true, Option.some.injEq] at hop
      subst hop
      have hlen := length_erase_succ ht
      refine ⟨dequeue_isQueue hq ht, ?_, by omega⟩
      show (dequeue_task_other_rr rq (task_ptr t)).nr_running = _
      rw [dequeue_nr_running, hn]
      have e : q.length + U64 - 1 = (q.erase t).length + U64 := by omega
      rw [e, Nat.add_mod_right, Nat.mod_eq_of_lt (by omega)]
    · simp [Op.collection, ht] at hop
  | requeue t =>
    by_cases ht : t ∈ q
    · simp only [Op.collection, ht, if_true, Option.some.injEq] at hop
      subst hop
      have hlen := length_erase_succ ht
      refine ⟨requeue_isQueue hq ht, ?_, by simp; omega⟩
      show (requeue_task_other_rr rq (task_ptr t)).nr_running = _
      rw [requeue_nr_running, hn, List.length_append, List.length_singleton]
      omega
    · simp [Op.collection, ht] at hop

/-- C1 (count invariant).  From a run queue whose `nr_running` equals the
length of its ordered collection `q`, every finite sequence of Enqueue (of a
task not in the queue), Dequeue and Requeue (of a task in the queue) leads to a
run queue whose heap again represents a collection, the one the contract names,
and whose `nr_running` equals the number of tasks in it.  The counter is an
`unsigned long`: the sequence is short enough for the queue to stay below
`2^64` tasks. -/
theorem count_invariant (ops : List Op) :
    ∀ (rq : Rq) (q q1 : List Nat), IsQueue rq q → rq.nr_running = q.length →
      collection_after q ops = some q1 → q.length + ops.length < U64 →
      IsQueue (run_ops rq ops) q1 ∧ (run_ops rq ops).nr_running = q1.length := by
  induction ops with
  | nil =>
    intro rq q q1 hq hn hops _
    simp only [collection_after, Option.some.injEq] at hops
    subst hops
    exact ⟨hq, hn⟩
  | cons op ops ih =>
    intro rq q q1 hq hn hops hb
    simp only [List.length_cons] at hb
    cases hc : op.collection q with
    | none => simp [collection_after, hc] at hops
    | some q2 =>
      simp only [collection_after, hc] at hops
      obtain ⟨h1, h2, h3⟩ := Op.apply_invariant hq hn (by omega) hc
      exact ih (op.apply rq) q2 q1 h1 h2 hops (by omega)

/-- C1 at a concrete run: two tasks are enqueued on the empty queue, the first
is requeued, the second dequeued; one task is left and the counter is 1. -/
theorem count_invariant_witness :
    IsQueue (run_ops (empty_rq 2) [Op.enqueue 1, Op.enqueue 2, Op.requeue 1, Op.dequeue 2]) [1] ∧
      (run_ops (empty_rq 2)
        [Op.enqueue 1, Op.enqueue 2, Op.requeue 1, Op.dequeue 2]).nr_running = [1].length :=
  count_invariant [Op.enqueue 1, Op.enqueue 2, Op.requeue 1, Op.dequeue 2] (empty_rq 2) [] [1]
    (by decide) rfl (by decide) (by decide)

/-! ## Task selection -/

/-- C2.  On a run queue whose ordered collection is empty,
`pick_next_task_other_rr` does not return `NULL`: `queue->next` is the list
head itself, which is returned as if it were a task, after `exec_start` has
been stored through it. -/
theorem pick_next_empty_returns_queue_head (rq : Rq) (hq : IsQueue rq []) :
    (pick_next_task_other_rr rq).1 = queue_head ∧
      (pick_next_task_other_rr rq).1 ≠ NULL ∧
      (pick_next_task_other_rr rq).2.exec_start queue_head = rq.clock := by
  have hnext : rq.next queue_head = queue_head := hq.2.1
  refine ⟨hnext, ?_, ?_⟩
  · show rq.next queue_head ≠ NULL
    rw [hnext]
    decide
  · show store rq.exec_start (rq.next queue_head) rq.clock queue_head = rq.clock
    rw [hnext, store_same]

/-- C2 on the empty run queue at clock 7. -/
theorem pick_next_empty_returns_queue_head_witness :
    (pick_next_task_other_rr { empty_rq 2 with clock := 7 }).1 = queue_head ∧
      (pick_next_task_other_rr { empty_rq 2 with clock := 7 }).1 ≠ NULL ∧
      (pick_next_task_other_rr { empty_rq 2 with clock := 7 }).2.exec_start queue_head = 7 :=
  pick_next_empty_returns_queue_head { empty_rq 2 with clock := 7 } (by decide)

/-- C3.  On a run queue whose ordered collection is `t :: q`,
`pick_next_task_other_rr` returns the address of the link embedded in the head
task `t`, which is not the task, and stores the clock in `exec_start` through
that address: the `exec_start` of task `t` keeps its value.  The collection and
`nr_running` are unchanged. -/
theorem pick_next_returns_link_of_head (rq : Rq) (t : Nat) (q : List Nat)
    (hq : IsQueue rq (t :: q)) :
    (pick_next_task_other_rr rq).1 = run_list (task_ptr t) ∧
      (pick_next_task_other_rr rq).1 ≠ task_ptr t ∧
      (pick_next_task_other_rr rq).2.exec_start (task_ptr t) = rq.exec_start (task_ptr t) ∧
      (pick_next_task_other_rr rq).2.exec_start (run_list (task_ptr t)) = rq.clock ∧
      IsQueue (pick_next_task_other_rr rq).2 (t :: q) ∧
      (pick_next_task_other_rr rq).2.nr_running = rq.nr_running := by
  have hnext : rq.next queue_head = run_list (task_ptr t) := hq.2.1
  have hne : task_ptr t ≠ run_list (task_ptr t) := by
    simp [run_list, task_ptr]
  refine ⟨hnext, ?_, ?_, ?_, hq, rfl⟩
  · show rq.next queue_head ≠ task_ptr t
    rw [hnext]
    exact Ne.symm hne
  · show store rq.exec_start (rq.next queue_head) rq.clock (task_ptr t) = _
    rw [hnext, store_other _ _ hne]
  · show store rq.exec_start (rq.next queue_head) rq.clock (run_list (task_ptr t)) = _
    rw [hnext, store_same]

/-- C3 on the queue of tasks 1 and 2 at clock 5: the pointer returned is not
task 1, and the `exec_start` of task 1 is still 0. -/
theorem pick_next_returns_link_of_head_witness :
    (pick_next_task_other_rr two_task_rq).1 = run_list (task_ptr 1) ∧
      (pick_next_task_other_rr two_task_rq).1 ≠ task_ptr 1 ∧
      (pick_next_task_other_rr two_task_rq).2.exec_start (task_ptr 1) = 0 ∧
      (pick_next_task_other_rr two_task_rq).2.exec_start (run_list (task_ptr 1)) = 5 ∧
      IsQueue (pick_next_task_other_rr two_task_rq).2 [1, 2] ∧
      (pick_next_task_other_rr two_task_rq).2.nr_running = 2 :=
  pick_next_returns_link_of_head two_task_rq 1 [2] (by decide)

/-! ## Enqueue and Dequeue -/

/-- C4.  Enqueue of a task `t` that is not in the collection `q`: the
accounting fields are those `update_curr_other_rr` computes on the run queue
as it was before the call, the collection becomes `q ++ [t]`, and `nr_running`
grows by exactly 1 (the counter being below its largest value). -/
theorem enqueue_appends_at_tail (rq : Rq) (q : List Nat) (t : Nat)
    (hq : IsQueue rq q) (ht : t ∉ q) (hn : rq.nr_running + 1 < U64) :
    IsQueue (enqueue_task_other_rr rq (task_ptr t)) (q ++ [t]) ∧
      (enqueue_task_other_rr rq (task_ptr t)).nr_running = rq.nr_running + 1 ∧
      (enqueue_task_other_rr rq (task_ptr t)).exec_start = (update_curr_other_rr rq).exec_start ∧
      (enqueue_task_other_rr rq (task_ptr t)).sum_exec_runtime =
        (update_curr_other_rr rq).sum_exec_runtime ∧
      (enqueue_task_other_rr rq (task_ptr t)).exec_max = (update_curr_other_rr rq).exec_max ∧
      (enqueue_task_other_rr rq (task_ptr t)).charged = (update_curr_other_rr rq).charged := by
  refine ⟨enqueue_isQueue hq ht, ?_, rfl, rfl, rfl, rfl⟩
  rw [enqueue_nr_running, Nat.mod_eq_of_lt hn]

/-- C4 at a concrete call: task 3 joins the queue of tasks 1 and 2. -/
theorem enqueue_appends_at_tail_witness :
    IsQueue (enqueue_task_other_rr two_task_rq (task_ptr 3)) ([1, 2] ++ [3]) ∧
      (enqueue_task_other_rr two_task_rq (task_ptr 3)).nr_running = two_task_rq.nr_running + 1 ∧
      (enqueue_task_other_rr two_task_rq (task_ptr 3)).exec_start =
        (update_curr_other_rr two_task_rq).exec_start ∧
      (enqueue_task_other_rr two_task_rq (task_ptr 3)).sum_exec_runtime =
        (update_curr_other_rr two_task_rq).sum_exec_runtime ∧
      (enqueue_task_other_rr two_task_rq (task_ptr 3)).exec_max =
        (update_curr_other_rr two_task_rq).exec_max ∧
      (enqueue_task_other_rr two_task_rq (task_ptr 3)).charged =
        (update_curr_other_rr two_task_rq).charged :=
  enqueue_appends_at_tail two_task_rq [1, 2] 3 (by decide) (by decide) (by decide)

/-- C5.  Dequeue of a member `t` of the collection `q`, on a run queue whose
counter equals the length of `q`: the collection becomes `q` with `t` erased,
which is `q` with exactly `t` filtered out, so that all other tasks stay, in
their order; `nr_running` drops by exactly 1. -/
theorem dequeue_removes_exactly (rq : Rq) (q : List Nat) (t : Nat)
    (hq : IsQueue rq q) (ht : t ∈ q) (hn : rq.nr_running = q.length) (hb : q.length < U64) :
    IsQueue (dequeue_task_other_rr rq (task_ptr t)) (q.erase t) ∧
      q.erase t = q.filter (fun u => u != t) ∧
      (dequeue_task_other_rr rq (task_ptr t)).nr_running + 1 = rq.nr_running := by
  have hlen := length_erase_succ ht
  refine ⟨dequeue_isQueue hq ht, List.Nodup.erase_eq_filter hq.1 t, ?_⟩
  rw [dequeue_nr_running, hn]
  have e : q.length + U64 - 1 = (q.erase t).length + U64 := by omega
  rw [e, Nat.add_mod_right, Nat.mod_eq_of_lt (by omega)]
  exact hlen

/-- C5 with three tasks: from the queue 1, 2, 3 the middle task is dequeued and
1, 3 remain, in this order. -/
theorem dequeue_removes_exactly_witness :
    IsQueue (dequeue_task_other_rr (enqueue_task_other_rr two_task_rq (task_ptr 3)) (task_ptr 2))
        ([1, 2, 3].erase 2) ∧
      [1, 2, 3].erase 2 = [1, 2, 3].filter (fun u => u != 2) ∧
      (dequeue_task_other_rr (enqueue_task_other_rr two_task_rq (task_ptr 3))
        (task_ptr 2)).nr_running + 1 = (enqueue_task_other_rr two_task_rq (task_ptr 3)).nr_running :=
  dequeue_removes_exactly (enqueue_task_other_rr two_task_rq (task_ptr 3)) [1, 2, 3] 2
    (by decide) (by decide) (by decide) (by decide)

/-! ## The tick handler -/

theorem update_curr_task_time_slice (rq : Rq) :
    (update_curr_other_rr rq).task_time_slice = rq.task_time_slice := by
  by_cases h : rq.task_has_other_rr_policy rq.curr = false <;> simp [update_curr_other_rr, h]

theorem update_curr_need_resched (rq : Rq) :
    (update_curr_other_rr rq).need_resched = rq.need_resched := by
  by_cases h : rq.task_has_other_rr_policy rq.curr = false <;> simp [update_curr_other_rr, h]

theorem update_curr_quantum (rq : Rq) :
    (update_curr_other_rr rq).other_rr_time_slice = rq.other_rr_time_slice := by
  by_cases h : rq.task_has_other_rr_policy rq.curr = false <;> simp [update_curr_other_rr, h]

/-- A tick with the quantum set to zero is the accounting step alone. -/
theorem task_tick_quantum_zero (rq : Rq) (p : Ptr) (h : rq.other_rr_time_slice = 0) :
    task_tick_other_rr rq p = update_curr_other_rr rq := by
  have hq := update_curr_quantum rq
  unfold task_tick_other_rr
  simp only [hq, h, ne_eq, not_true_eq_false, if_false]

theorem update_curr_tast (rq : Rq) :
    (update_curr_other_rr rq).tast_time_slice = rq.tast_time_slice := by
  by_cases h : rq.task_has_other_rr_policy rq.curr = false <;> simp [update_curr_other_rr, h]

/-- A tick that finds the guard member non-zero decrements the time slice and
does nothing else beyond the accounting step. -/
theorem task_tick_running (rq : Rq) (p : Ptr) (h : rq.other_rr_time_slice ≠ 0)
    (hg : rq.tast_time_slice p ≠ 0) :
    task_tick_other_rr rq p =
      { update_curr_other_rr rq with
        task_time_slice := store (update_curr_other_rr rq).task_time_slice p
          (((update_curr_other_rr rq).task_time_slice p + U32 - 1) % U32) } := by
  have hq := update_curr_quantum rq
  have ht := update_curr_tast rq
  unfold task_tick_other_rr
  simp only [hq, h, ne_eq, not_false_eq_true, if_true, ht, hg]

/-- A tick that finds the guard member at zero refills the time slice, sets the
flag and requeues the task. -/
theorem task_tick_expired (rq : Rq) (p : Ptr) (h : rq.other_rr_time_slice ≠ 0)
    (hg : rq.tast_time_slice p = 0) :
    task_tick_other_rr rq p =
      requeue_task_other_rr
        { update_curr_other_rr rq with
          task_time_slice := store (update_curr_other_rr rq).task_time_slice p
            (update_curr_other_rr rq).other_rr_time_slice
          need_resched := store (update_curr_other_rr rq).need_resched p true } p := by
  have hq := update_curr_quantum rq
  have ht := update_curr_tast rq
  unfold task_tick_other_rr
  simp only [hq, h, ne_eq, not_false_eq_true, if_true, ht, hg, not_true_eq_false, if_false]

theorem tick_seq_append (p : Ptr) (cs ds : List Nat) :
    ∀ rq : Rq, tick_seq rq p (cs ++ ds) = tick_seq (tick_seq rq p cs) p ds := by
  induction cs with
  | nil => intro rq; rfl
  | cons c cs ih => intro rq; exact ih _

/-- While the guard member is non-zero, ticks only count the time slice down,
modulo `2^32`, and never change the guard member. -/
theorem tick_seq_running (p : Ptr) (cs : List Nat) :
    ∀ rq : Rq, rq.other_rr_time_slice ≠ 0 → rq.tast_time_slice p ≠ 0 →
      rq.task_time_slice p < U32 →
      (tick_seq rq p cs).next = rq.next ∧ (tick_seq rq p cs).prev = rq.prev ∧
      (tick_seq rq p cs).need_resched = rq.need_resched ∧
      (tick_seq rq p cs).other_rr_time_slice = rq.other_rr_time_slice ∧
      (tick_seq rq p cs).tast_time_slice = rq.tast_time_slice ∧
      (tick_seq rq p cs).task_time_slice p =
        (rq.task_time_slice p + cs.length * (U32 - 1)) % U32 := by
  induction cs with
  | nil =>
    intro rq _ _ hs
    refine ⟨rfl, rfl, rfl, rfl, rfl, ?_⟩
    show rq.task_time_slice p = _
    rw [List.length_nil, Nat.zero_mul, Nat.add_zero, Nat.mod_eq_of_lt hs]
  | cons c cs ih =>
    intro rq hq hg hs
    have hstep := task_tick_running { rq with clock := c } p hq hg
    have h1 : (task_tick_other_rr { rq with clock := c } p).task_time_slice p =
        (rq.task_time_slice p + U32 - 1) % U32 := by
      rw [hstep]
      show store _ p _ p = _
      rw [store_same, update_curr_task_time_slice]
    have h2 : (task_tick_other_rr { rq with clock := c } p).other_rr_time_slice =
        rq.other_rr_time_slice := by
      rw [hstep]
      exact update_curr_quantum _
    have h3 : (task_tick_other_rr { rq with clock := c } p).next = rq.next := by
      rw [hstep]
      exact update_curr_next _
    have h4 : (task_tick_other_rr { rq with clock := c } p).prev = rq.prev := by
      rw [hstep]
      exact update_curr_prev _
    have h5 : (task_tick_other_rr { rq with clock := c } p).need_resched = rq.need_resched := by
      rw [hstep]
      exact update_curr_need_resched _
    have h6 : (task_tick_other_rr { rq with clock := c } p).tast_time_slice =
        rq.tast_time_slice := by
      rw [hstep]
      exact update_curr_tast _
    obtain ⟨i1, i2, i3, i4, i5, i6⟩ := ih (task_tick_other_rr { rq with clock := c } p)
      (by rw [h2]; exact hq) (by rw [h6]; exact hg)
      (by rw [h1]; exact Nat.mod_lt _ (by decide))
    refine ⟨by rw [← h3]; exact i1, by rw [← h4]; exact i2, by rw [← h5]; exact i3,
      by rw [← h2]; exact i4, by rw [← h6]; exact i5, ?_⟩
    show (tick_seq (task_tick_other_rr { rq with clock := c } p) p cs).task_time_slice p = _
    rw [i6, h1, List.length_cons]
    unfold U32 at hs
    simp only [U32]
    omega

/-- C6.  Quantum `q > 0`, a task `t` of the queue whose time slice is `q` and
whose flag is clear.  What the ticks do is decided by the member
`tast_time_slice` that the guard reads, not by the slice.  When that member is
non-zero, no tick expires the slice: after any `k ≤ q` of the first `q` ticks
the flag is clear, the collection is as it was and the slice is `q - k`; the
tick after those takes the slice from 0 to `2^32 - 1` with flag and collection
still untouched; and so it is after any sequence `ds` of ticks.  When that
member is zero, the very first tick sets the flag, moves the task to the tail
and refills the slice. -/
theorem tick_expiry_follows_guard_member (rq : Rq) (t : Nat) (coll : List Nat)
    (cs ds : List Nat) (k c : Nat) (hcoll : IsQueue rq coll) (ht : t ∈ coll)
    (hq : 0 < rq.other_rr_time_slice) (hq32 : rq.other_rr_time_slice < U32)
    (hs : rq.task_time_slice (task_ptr t) = rq.other_rr_time_slice)
    (hflag : rq.need_resched (task_ptr t) = false)
    (hlen : cs.length = rq.other_rr_time_slice) (hk : k ≤ rq.other_rr_time_slice) :
    (rq.tast_time_slice (task_ptr t) ≠ 0 →
      ((tick_seq rq (task_ptr t) (cs.take k)).need_resched (task_ptr t) = false ∧
        IsQueue (tick_seq rq (task_ptr t) (cs.take k)) coll ∧
        (tick_seq rq (task_ptr t) (cs.take k)).task_time_slice (task_ptr t) =
          rq.other_rr_time_slice - k) ∧
      ((tick_seq rq (task_ptr t) (cs ++ [c])).need_resched (task_ptr t) = false ∧
        IsQueue (tick_seq rq (task_ptr t) (cs ++ [c])) coll ∧
        (tick_seq rq (task_ptr t) (cs ++ [c])).task_time_slice (task_ptr t) = U32 - 1) ∧
      ((tick_seq rq (task_ptr t) ds).need_resched (task_ptr t) = false ∧
        IsQueue (tick_seq rq (task_ptr t) ds) coll)) ∧
    (rq.tast_time_slice (task_ptr t) = 0 →
      (tick_seq rq (task_ptr t) [c]).need_resched (task_ptr t) = true ∧
        IsQueue (tick_seq rq (task_ptr t) [c]) (coll.erase t ++ [t]) ∧
        (tick_seq rq (task_ptr t) [c]).task_time_slice (task_ptr t) =
          rq.other_rr_time_slice) := by
  have hq0 : rq.other_rr_time_slice ≠ 0 := by omega
  have hs32 : rq.task_time_slice (task_ptr t) < U32 := by rw [hs]; exact hq32
  refine ⟨?_, ?_⟩
  · intro hg
    have hklen : (cs.take k).length = k := by
      rw [List.length_take]
      omega
    obtain ⟨a1, a2, a3, _, _, a6⟩ := tick_seq_running (task_ptr t) (cs.take k) rq hq0 hg hs32
    obtain ⟨b1, b2, b3, _, _, b6⟩ := tick_seq_running (task_ptr t) (cs ++ [c]) rq hq0 hg hs32
    obtain ⟨d1, d2, d3, _, _, _⟩ := tick_seq_running (task_ptr t) ds rq hq0 hg hs32
    refine ⟨⟨by rw [a3]; exact hflag, ⟨hcoll.1, by rw [a1, a2]; exact hcoll.2⟩, ?_⟩,
      ⟨by rw [b3]; exact hflag, ⟨hcoll.1, by rw [b1, b2]; exact hcoll.2⟩, ?_⟩,
      ⟨by rw [d3]; exact hflag, ⟨hcoll.1, by rw [d1, d2]; exact hcoll.2⟩⟩⟩
    · rw [a6, hklen, hs]
      unfold U32 at hq32
      simp only [U32]
      omega
    · rw [b6, List.length_append, List.length_singleton, hlen, hs]
      unfold U32 at hq32
      simp only [U32]
      omega
  · intro hg
    have hstep := task_tick_expired { rq with clock := c } (task_ptr t) hq0 hg
    have hone : tick_seq rq (task_ptr t) [c] =
        task_tick_other_rr { rq with clock := c } (task_ptr t) := rfl
    rw [hone, hstep]
    refine ⟨?_, ?_, ?_⟩
    · show store _ (task_ptr t) true (task_ptr t) = true
      exact store_same _ _ _
    · refine requeue_isQueue ?_ ht
      refine ⟨hcoll.1, ?_⟩
      show Linked (update_curr_other_rr _).next (update_curr_other_rr _).prev _ _ _
      rw [update_curr_next, update_curr_prev]
      exact hcoll.2
    · show store _ (task_ptr t) _ (task_ptr t) = _
      rw [store_same, update_curr_quantum]

/-- C6 with one task and quantum 2, slice and guard member both 2: after the
two ticks at clock 10 and 20 the flag of the task is still clear and its slice
is 0; the third tick, at clock 30, wraps the slice and leaves the flag clear,
as do two more ticks. -/
theorem tick_expiry_follows_guard_member_witness :
    ((tick_seq one_task_rq (task_ptr 1) ([10, 20].take 2)).need_resched (task_ptr 1) = false ∧
        IsQueue (tick_seq one_task_rq (task_ptr 1) ([10, 20].take 2)) [1] ∧
        (tick_seq one_task_rq (task_ptr 1) ([10, 20].take 2)).task_time_slice (task_ptr 1) =
          one_task_rq.other_rr_time_slice - 2) ∧
      ((tick_seq one_task_rq (task_ptr 1) ([10, 20] ++ [30])).need_resched (task_ptr 1) = false ∧
        IsQueue (tick_seq one_task_rq (task_ptr 1) ([10, 20] ++ [30])) [1] ∧
        (tick_seq one_task_rq (task_ptr 1) ([10, 20] ++ [30])).task_time_slice (task_ptr 1) =
          U32 - 1) ∧
      ((tick_seq one_task_rq (task_ptr 1) [10, 20, 30, 40, 50]).need_resched (task_ptr 1) =
          false ∧
        IsQueue (tick_seq one_task_rq (task_ptr 1) [10, 20, 30, 40, 50]) [1]) :=
  (tick_expiry_follows_guard_member one_task_rq 1 [1] [10, 20] [10, 20, 30, 40, 50] 2 30
    (by decide) (by decide) (by decide) (by decide) (by decide) (by decide) (by decide)
    (by decide)).1 (by decide)

/-- C7.  With tasks 1, 2, 3 enqueued in this order on the empty queue, for
every quantum, the collection is 1, 2, 3 and the very first pick hands the
dispatcher the address of the link inside task 1, not task 1. -/
theorem rotation_first_pick_is_not_first_task (quantum : Nat) :
    IsQueue (three_task_rq quantum) [1, 2, 3] ∧
      (pick_next_task_other_rr (three_task_rq quantum)).1 = run_list (task_ptr 1) ∧
      (pick_next_task_other_rr (three_task_rq quantum)).1 ≠ task_ptr 1 := by
  have h0 : IsQueue (empty_rq quantum) [] := ⟨List.nodup_nil, rfl, rfl⟩
  have h1 := enqueue_isQueue (t := 1) h0 (by decide)
  have h2 := enqueue_isQueue (t := 2) h1 (by decide)
  have h3 : IsQueue (three_task_rq quantum) [1, 2, 3] := enqueue_isQueue (t := 3) h2 (by decide)
  have hnext : (three_task_rq quantum).next queue_head = run_list (task_ptr 1) := h3.2.1
  refine ⟨h3, hnext, ?_⟩
  show (three_task_rq quantum).next queue_head ≠ task_ptr 1
  rw [hnext]
  decide

/-- When the quantum is zero, ticks are accounting steps. -/
theorem tick_seq_quantum_zero (p : Ptr) (cs : List Nat) :
    ∀ rq : Rq, rq.other_rr_time_slice = 0 →
      (tick_seq rq p cs).next = rq.next ∧ (tick_seq rq p cs).prev = rq.prev ∧
      (tick_seq rq p cs).task_time_slice = rq.task_time_slice ∧
      (tick_seq rq p cs).need_resched = rq.need_resched ∧
      (tick_seq rq p cs).nr_running = rq.nr_running := by
  induction cs with
  | nil => intro rq _; exact ⟨rfl, rfl, rfl, rfl, rfl⟩
  | cons c cs ih =>
    intro rq hq
    have hstep : task_tick_other_rr { rq with clock := c } p =
        update_curr_other_rr { rq with clock := c } := task_tick_quantum_zero _ p hq
    have hq1 : (task_tick_other_rr { rq with clock := c } p).other_rr_time_slice = 0 := by
      rw [hstep, update_curr_quantum]
      exact hq
    obtain ⟨i1, i2, i3, i4, i5⟩ := ih (task_tick_other_rr { rq with clock := c } p) hq1
    show (tick_seq (task_tick_other_rr { rq with clock := c } p) p cs).next = _ ∧
      (tick_seq (task_tick_other_rr { rq with clock := c } p) p cs).prev = _ ∧
      (tick_seq (task_tick_other_rr { rq with clock := c } p) p cs).task_time_slice = _ ∧
      (tick_seq (task_tick_other_rr { rq with clock := c } p) p cs).need_resched = _ ∧
      (tick_seq (task_tick_other_rr { rq with clock := c } p) p cs).nr_running = _
    rw [i1, i2, i3, i4, i5, hstep, update_curr_next, update_curr_prev,
      update_curr_task_time_slice, update_curr_need_resched, update_curr_nr_running]
    exact ⟨rfl, rfl, rfl, rfl, rfl⟩

/-- C8.  With the quantum set to zero, for every run queue, every task pointer
and every sequence of ticks (at any clock values), the links of the ordered
collection, the time slice of every task, the need-resched flag of every task
and `nr_running` are what they were before the ticks; a collection `q`
represented before is represented after. -/
theorem quantum_zero_never_requeues (rq : Rq) (p : Ptr) (cs : List Nat) (q : List Nat)
    (hq : rq.other_rr_time_slice = 0) (hcoll : IsQueue rq q) :
    (tick_seq rq p cs).next = rq.next ∧ (tick_seq rq p cs).prev = rq.prev ∧
      IsQueue (tick_seq rq p cs) q ∧
      (tick_seq rq p cs).task_time_slice = rq.task_time_slice ∧
      (tick_seq rq p cs).need_resched = rq.need_resched ∧
      (tick_seq rq p cs).nr_running = rq.nr_running := by
  obtain ⟨i1, i2, i3, i4, i5⟩ := tick_seq_quantum_zero p cs rq hq
  refine ⟨i1, i2, ⟨hcoll.1, ?_⟩, i3, i4, i5⟩
  rw [i1, i2]
  exact hcoll.2

/-- C8 on the queue of tasks 1 and 2 with the quantum set to zero and three
ticks for task 1. -/
theorem quantum_zero_never_requeues_witness :
    (tick_seq { two_task_rq with other_rr_time_slice := 0, curr := task_ptr 1 } (task_ptr 1)
        [10, 20, 30]).next = two_task_rq.next ∧
      (tick_seq { two_task_rq with other_rr_time_slice := 0, curr := task_ptr 1 } (task_ptr 1)
        [10, 20, 30]).prev = two_task_rq.prev ∧
      IsQueue (tick_seq { two_task_rq with other_rr_time_slice := 0, curr := task_ptr 1 }
        (task_ptr 1) [10, 20, 30]) [1, 2] ∧
      (tick_seq { two_task_rq with other_rr_time_slice := 0, curr := task_ptr 1 } (task_ptr 1)
        [10, 20, 30]).task_time_slice = two_task_rq.task_time_slice ∧
      (tick_seq { two_task_rq with other_rr_time_slice := 0, curr := task_ptr 1 } (task_ptr 1)
        [10, 20, 30]).need_resched = two_task_rq.need_resched ∧
      (tick_seq { two_task_rq with other_rr_time_slice := 0, curr := task_ptr 1 } (task_ptr 1)
        [10, 20, 30]).nr_running = two_task_rq.nr_running :=
  quantum_zero_never_requeues { two_task_rq with other_rr_time_slice := 0, curr := task_ptr 1 }
    (task_ptr 1) [10, 20, 30] [1, 2] rfl (by decide)

/-! ## Accounting -/

/-- The value `delta_exec` computes is the difference of the two `u64` values
read as a signed 64-bit number, with negative values replaced by zero. -/
theorem delta_exec_eq_clamped_s64 (clock exec_start : Nat) (hc : clock < U64)
    (he : exec_start < U64) :
    (delta_exec clock exec_start : Int) =
      max 0 (Int.bmod ((clock : Int) - (exec_start : Int)) (2 ^ 64)) := by
  unfold U64 at hc he
  simp only [delta_exec, U64, Int.bmod]
  norm_num
  split_ifs <;> omega

/-- C9.  The accounting step, for `u64` values of the clock and of the start
of the current execution.  The delta is the difference `clock - exec_start`
read as a signed 64-bit number and set to 0 when negative; it is the plain
difference when the clock is ahead by less than `2^63`.  When `rq->curr` has
the policy of this class, the step sets its `exec_max` to the maximum of the
old value and the delta, adds the delta to its `sum_exec_runtime` (a `u64`
sum), sets its `exec_start` to the clock and charges exactly the delta; no
other task and no other field changes.  When `rq->curr` does not have the
policy, the run queue is returned as it is. -/
theorem update_curr_accounting (rq : Rq) (hc : rq.clock < U64)
    (he : rq.exec_start rq.curr < U64) :
    ((delta_exec rq.clock (rq.exec_start rq.curr) : Int) =
        max 0 (Int.bmod ((rq.clock : Int) - (rq.exec_start rq.curr : Int)) (2 ^ 64))) ∧
      (rq.exec_start rq.curr ≤ rq.clock → rq.clock - rq.exec_start rq.curr < 2 ^ 63 →
        delta_exec rq.clock (rq.exec_start rq.curr) = rq.clock - rq.exec_start rq.curr) ∧
      (rq.task_has_other_rr_policy rq.curr = true →
        (update_curr_other_rr rq).exec_max = store rq.exec_max rq.curr
            (max (rq.exec_max rq.curr) (delta_exec rq.clock (rq.exec_start rq.curr))) ∧
          (update_curr_other_rr rq).sum_exec_runtime = store rq.sum_exec_runtime rq.curr
            ((rq.sum_exec_runtime rq.curr + delta_exec rq.clock (rq.exec_start rq.curr)) % U64) ∧
          (update_curr_other_rr rq).exec_start = store rq.exec_start rq.curr rq.clock ∧
          (update_curr_other_rr rq).charged =
            rq.charged ++ [(rq.curr, delta_exec rq.clock (rq.exec_start rq.curr))] ∧
          (update_curr_other_rr rq).next = rq.next ∧
          (update_curr_other_rr rq).prev = rq.prev ∧
          (update_curr_other_rr rq).nr_running = rq.nr_running ∧
          (update_curr_other_rr rq).task_time_slice = rq.task_time_slice ∧
          (update_curr_other_rr rq).need_resched = rq.need_resched) ∧
      (rq.task_has_other_rr_policy rq.curr = false → update_curr_other_rr rq = rq) := by
  refine ⟨delta_exec_eq_clamped_s64 _ _ hc he, ?_, ?_, ?_⟩
  · intro h1 h2
    unfold U64 at hc he
    simp only [delta_exec, U64]
    have e : (rq.clock + 2 ^ 64 - rq.exec_start rq.curr) % 2 ^ 64 =
        rq.clock - rq.exec_start rq.curr := by omega
    rw [e, if_neg (by omega)]
  · intro hp
    simp [update_curr_other_rr, hp]
  · intro hp
    simp [update_curr_other_rr, hp]

/-- C9 at a concrete call: task 1 started at 100 with 7 run so far, the clock
reads 130. -/
theorem update_curr_accounting_witness :
    ((delta_exec running_rq.clock (running_rq.exec_start running_rq.curr) : Int) =
        max 0 (Int.bmod ((running_rq.clock : Int) - (running_rq.exec_start running_rq.curr : Int))
          (2 ^ 64))) ∧
      (running_rq.exec_start running_rq.curr ≤ running_rq.clock →
        running_rq.clock - running_rq.exec_start running_rq.curr < 2 ^ 63 →
        delta_exec running_rq.clock (running_rq.exec_start running_rq.curr) =
          running_rq.clock - running_rq.exec_start running_rq.curr) ∧
      (running_rq.task_has_other_rr_policy running_rq.curr = true →
        (update_curr_other_rr running_rq).exec_max = store running_rq.exec_max running_rq.curr
            (max (running_rq.exec_max running_rq.curr)
              (delta_exec running_rq.clock (running_rq.exec_start running_rq.curr))) ∧
          (update_curr_other_rr running_rq).sum_exec_runtime =
            store running_rq.sum_exec_runtime running_rq.curr
              ((running_rq.sum_exec_runtime running_rq.curr +
                delta_exec running_rq.clock (running_rq.exec_start running_rq.curr)) % U64) ∧
          (update_curr_other_rr running_rq).exec_start =
            store running_rq.exec_start running_rq.curr running_rq.clock ∧
          (update_curr_other_rr running_rq).charged = running_rq.charged ++
            [(running_rq.curr, delta_exec running_rq.clock (running_rq.exec_start running_rq.curr))] ∧
          (update_curr_other_rr running_rq).next = running_rq.next ∧
          (update_curr_other_rr running_rq).prev = running_rq.prev ∧
          (update_curr_other_rr running_rq).nr_running = running_rq.nr_running ∧
          (update_curr_other_rr running_rq).task_time_slice = running_rq.task_time_slice ∧
          (update_curr_other_rr running_rq).need_resched = running_rq.need_resched) ∧
      (running_rq.task_has_other_rr_policy running_rq.curr = false →
        update_curr_other_rr running_rq = running_rq) :=
  update_curr_accounting running_rq (by decide) (by decide)

/-- C10 as stated fails.  The clock reads 0 and the running task started at
`2^63 + 1`, so the clock is behind the start; the `u64` difference wraps to
`2^63 - 1`, which is not negative as an `s64`, and the accounting step adds
it to the accumulated runtime, records it as the largest delta and charges
it. -/
theorem negative_delta_leaks_beyond_s64 :
    skew_rq.clock < U64 ∧ skew_rq.exec_start skew_rq.curr < U64 ∧
      skew_rq.clock < skew_rq.exec_start skew_rq.curr ∧
      skew_rq.task_has_other_rr_policy skew_rq.curr = true ∧
      skew_rq.sum_exec_runtime skew_rq.curr = 0 ∧
      (update_curr_other_rr skew_rq).sum_exec_runtime skew_rq.curr = 9223372036854775807 ∧
      skew_rq.exec_max skew_rq.curr = 0 ∧
      (update_curr_other_rr skew_rq).exec_max skew_rq.curr = 9223372036854775807 ∧
      (update_curr_other_rr skew_rq).charged = [(task_ptr 1, 9223372036854775807)] := by
  decide

/-- C10, amended.  For `u64` values with the clock behind the start of the
current execution by at most `2^63`, the accounting step on a running task of
this class treats the delta as 0: `sum_exec_runtime` and `exec_max` of the
task keep their values, 0 is charged, and `exec_start` is reset to the
clock. -/
theorem negative_delta_clamped_within_s64 (rq : Rq)
    (hp : rq.task_has_other_rr_policy rq.curr = true)
    (he : rq.exec_start rq.curr < U64) (hs : rq.sum_exec_runtime rq.curr < U64)
    (hlt : rq.clock < rq.exec_start rq.curr)
    (hgap : rq.exec_start rq.curr - rq.clock ≤ 2 ^ 63) :
    (update_curr_other_rr rq).sum_exec_runtime rq.curr = rq.sum_exec_runtime rq.curr ∧
      (update_curr_other_rr rq).exec_max rq.curr = rq.exec_max rq.curr ∧
      (update_curr_other_rr rq).charged = rq.charged ++ [(rq.curr, 0)] ∧
      (update_curr_other_rr rq).exec_start rq.curr = rq.clock := by
  have hd : delta_exec rq.clock (rq.exec_start rq.curr) = 0 := by
    unfold U64 at he
    simp only [delta_exec, U64]
    rw [if_pos (by omega)]
  simp [update_curr_other_rr, hp, hd, store_same, Nat.mod_eq_of_lt hs]

/-- C10, amended, at a concrete call: the clock reads 130, the running task
started at 500. -/
theorem negative_delta_clamped_within_s64_witness :
    (update_curr_other_rr backward_rq).sum_exec_runtime backward_rq.curr =
        backward_rq.sum_exec_runtime backward_rq.curr ∧
      (update_curr_other_rr backward_rq).exec_max backward_rq.curr =
        backward_rq.exec_max backward_rq.curr ∧
      (update_curr_other_rr backward_rq).charged = backward_rq.charged ++ [(backward_rq.curr, 0)] ∧
      (update_curr_other_rr backward_rq).exec_start backward_rq.curr = backward_rq.clock :=
  negative_delta_clamped_within_s64 backward_rq (by decide) (by decide) (by decide) (by decide)
    (by decide)

/-! ## Accumulated runtime over ticks -/

theorem store_self {α : Type} (f : Ptr → α) (a : Ptr) : store f a (f a) = f := by
  funext x
  by_cases h : x = a
  · rw [h, store_same]
  · rw [store_other _ _ h]

theorem store_store {α : Type} (f : Ptr → α) (a : Ptr) (v w : α) :
    store (store f a v) a w = store f a w := by
  funext x
  by_cases h : x = a
  · rw [h, store_same, store_same]
  · rw [store_other _ _ h, store_other _ _ h, store_other _ _ h]

theorem tick_clocks_succ (c0 d n : Nat) :
    tick_clocks c0 d (n + 1) = (c0 + d) :: tick_clocks (c0 + d) d n := by
  simp only [tick_clocks, List.range_succ_eq_map, List.map_cons, List.map_map]
  refine congrArg₂ _ (by ring) ?_
  refine List.map_congr_left ?_
  intro i _
  simp only [Function.comp, Nat.succ_eq_add_one]
  ring

/-- A tick changes the accounting fields the way the accounting step does. -/
theorem task_tick_accounting (rq : Rq) (p : Ptr) :
    (task_tick_other_rr rq p).sum_exec_runtime = (update_curr_other_rr rq).sum_exec_runtime ∧
      (task_tick_other_rr rq p).exec_start = (update_curr_other_rr rq).exec_start ∧
      (task_tick_other_rr rq p).exec_max = (update_curr_other_rr rq).exec_max ∧
      (task_tick_other_rr rq p).charged = (update_curr_other_rr rq).charged ∧
      (task_tick_other_rr rq p).curr = (update_curr_other_rr rq).curr ∧
      (task_tick_other_rr rq p).task_has_other_rr_policy =
        (update_curr_other_rr rq).task_has_other_rr_policy := by
  by_cases hq : rq.other_rr_time_slice = 0
  · rw [task_tick_quantum_zero rq p hq]
    exact ⟨rfl, rfl, rfl, rfl, rfl, rfl⟩
  · by_cases hg : rq.tast_time_slice p = 0
    · rw [task_tick_expired rq p hq hg]
      exact ⟨rfl, rfl, rfl, rfl, rfl, rfl⟩
    · rw [task_tick_running rq p hq hg]
      exact ⟨rfl, rfl, rfl, rfl, rfl, rfl⟩

/-- The accounting step on a running task of the class, with the clock ahead
of the start by `d < 2^63` and no wrap of the sum. -/
theorem update_curr_forward (rq : Rq) (c0 d : Nat)
    (hp : rq.task_has_other_rr_policy rq.curr = true) (h0 : rq.exec_start rq.curr = c0)
    (hclk : rq.clock = c0 + d) (hd : d < 2 ^ 63)
    (hs : rq.sum_exec_runtime rq.curr + d < U64) :
    (update_curr_other_rr rq).sum_exec_runtime =
        store rq.sum_exec_runtime rq.curr (rq.sum_exec_runtime rq.curr + d) ∧
      (update_curr_other_rr rq).exec_start rq.curr = c0 + d ∧
      (update_curr_other_rr rq).curr = rq.curr ∧
      (update_curr_other_rr rq).task_has_other_rr_policy = rq.task_has_other_rr_policy := by
  have hdelta : delta_exec rq.clock (rq.exec_start rq.curr) = d := by
    rw [h0, hclk]
    simp only [delta_exec, U64]
    have e : (c0 + d + 2 ^ 64 - c0) % 2 ^ 64 = d := by omega
    rw [e, if_neg (by omega)]
  have hdelta1 : delta_exec (c0 + d) (rq.exec_start rq.curr) = d := by
    rw [← hclk]
    exact hdelta
  simp [update_curr_other_rr, hp, hdelta1, store_same, Nat.mod_eq_of_lt hs, hclk]

/-- Over `n` ticks that are `d` apart the running task accumulates `n * d`. -/
theorem tick_seq_accumulates (p : Ptr) (d : Nat) (hd : d < 2 ^ 63) :
    ∀ (n : Nat) (rq : Rq) (c0 : Nat), rq.task_has_other_rr_policy rq.curr = true →
      rq.exec_start rq.curr = c0 → rq.sum_exec_runtime rq.curr + n * d < U64 →
      (tick_seq rq p (tick_clocks c0 d n)).sum_exec_runtime =
        store rq.sum_exec_runtime rq.curr (rq.sum_exec_runtime rq.curr + n * d) := by
  intro n
  induction n with
  | zero =>
    intro rq c0 _ _ _
    show rq.sum_exec_runtime = _
    rw [Nat.zero_mul, Nat.add_zero, store_self]
  | succ n ih =>
    intro rq c0 hp h0 hs
    have hmul : (n + 1) * d = d + n * d := by ring
    rw [hmul] at hs
    rw [tick_clocks_succ]
    show (tick_seq (task_tick_other_rr { rq with clock := c0 + d } p) p
      (tick_clocks (c0 + d) d n)).sum_exec_runtime = _
    obtain ⟨t1, t2, _, _, t5, t6⟩ := task_tick_accounting { rq with clock := c0 + d } p
    obtain ⟨u1, u2, u3, u4⟩ := update_curr_forward { rq with clock := c0 + d } c0 d hp h0 rfl hd
      (by show rq.sum_exec_runtime rq.curr + d < U64; omega)
    have hcurr : (task_tick_other_rr { rq with clock := c0 + d } p).curr = rq.curr := by
      rw [t5, u3]
    have hsum : (task_tick_other_rr { rq with clock := c0 + d } p).sum_exec_runtime =
        store rq.sum_exec_runtime rq.curr (rq.sum_exec_runtime rq.curr + d) := by
      rw [t1, u1]
    have hpol : (task_tick_other_rr { rq with clock := c0 + d } p).task_has_other_rr_policy
        (task_tick_other_rr { rq with clock := c0 + d } p).curr = true := by
      rw [t6, u4, hcurr]
      exact hp
    have hstart : (task_tick_other_rr { rq with clock := c0 + d } p).exec_start
        (task_tick_other_rr { rq with clock := c0 + d } p).curr = c0 + d := by
      rw [t2, hcurr]
      exact u2
    have hsc : (task_tick_other_rr { rq with clock := c0 + d } p).sum_exec_runtime
        (task_tick_other_rr { rq with clock := c0 + d } p).curr =
          rq.sum_exec_runtime rq.curr + d := by
      rw [hsum, hcurr, store_same]
    rw [ih _ (c0 + d) hpol hstart (by rw [hsc]; omega), hsc, hcurr, hsum, store_store,
      hmul, Nat.add_assoc]

theorem sum_map_store_absent (f : Ptr → Nat) (a : Ptr) (v : Nat) :
    ∀ ts : List Ptr, a ∉ ts → (ts.map (store f a v)).sum = (ts.map f).sum
  | [], _ => rfl
  | x :: xs, h => by
    have hx : x ≠ a := fun e => h (by rw [e]; exact List.mem_cons_self _ _)
    simp only [List.map_cons, List.sum_cons, store_other _ _ hx]
    rw [sum_map_store_absent f a v xs (fun hm => h (List.mem_cons_of_mem _ hm))]

theorem sum_map_store_member (f : Ptr → Nat) (a : Ptr) (k : Nat) :
    ∀ ts : List Ptr, ts.Nodup → a ∈ ts →
      (ts.map (store f a (f a + k))).sum = (ts.map f).sum + k
  | [], _, h => by simp at h
  | x :: xs, hnd, h => by
    obtain ⟨hx, hxs⟩ := List.nodup_cons.1 hnd
    simp only [List.map_cons, List.sum_cons]
    by_cases e : x = a
    · subst e
      rw [store_same, sum_map_store_absent f x _ xs hx]
      omega
    · have hm : a ∈ xs := by
        rcases List.mem_cons.1 h with e1 | hm
        · exact absurd e1.symm e
        · exact hm
      rw [store_other _ _ e, sum_map_store_member f a k xs hxs hm]
      omega

/-- C11 as stated fails.  Task 1 runs, started at clock 0 with nothing
accumulated; one tick comes at clock `2^63`, so `N = 1`, `d = 2^63`, and no
clock value or sum exceeds 64 bits.  The delta `2^63` is negative as an `s64`
and is replaced by 0: the accumulated runtime is still 0 after the tick, not
`N * d`. -/
theorem long_tick_is_not_accumulated :
    one_task_rq.task_has_other_rr_policy one_task_rq.curr = true ∧
      one_task_rq.exec_start one_task_rq.curr = 0 ∧
      tick_clocks 0 (2 ^ 63) 1 = [2 ^ 63] ∧
      0 + 1 * 2 ^ 63 < U64 ∧
      one_task_rq.sum_exec_runtime one_task_rq.curr + 1 * 2 ^ 63 < U64 ∧
      (tick_seq one_task_rq (task_ptr 1) (tick_clocks 0 (2 ^ 63) 1)).sum_exec_runtime
        one_task_rq.curr = 0 ∧
      (tick_seq one_task_rq (task_ptr 1) (tick_clocks 0 (2 ^ 63) 1)).charged =
        [(task_ptr 1, 0)] := by
  decide

/-- C11, amended.  A task of this class runs, its `exec_start` at the clock
value `c0`.  After `N` ticks at the clock values `c0 + d`, ..., `c0 + N * d`,
with `d < 2^63` and no 64-bit overflow of the clock values or of the
accumulated runtime, the accumulated runtime of the running task has grown by
exactly `N * d` and that of every other task is unchanged, so that the total
over any set `ts` of tasks that contains the running task has grown by exactly
`N * d`: for every quantum, for every task pointer the ticks are made for, and
whatever requeues the ticks performed. -/
theorem ticks_accumulate_exactly (rq : Rq) (p : Ptr) (c0 d N : Nat) (ts : List Ptr)
    (hp : rq.task_has_other_rr_policy rq.curr = true) (h0 : rq.exec_start rq.curr = c0)
    (hd : d < 2 ^ 63) (_hclock : c0 + N * d < U64)
    (hsum : rq.sum_exec_runtime rq.curr + N * d < U64)
    (hts : ts.Nodup) (hmem : rq.curr ∈ ts) :
    (tick_seq rq p (tick_clocks c0 d N)).sum_exec_runtime =
        store rq.sum_exec_runtime rq.curr (rq.sum_exec_runtime rq.curr + N * d) ∧
      (ts.map (tick_seq rq p (tick_clocks c0 d N)).sum_exec_runtime).sum =
        (ts.map rq.sum_exec_runtime).sum + N * d := by
  have h := tick_seq_accumulates p d hd N rq c0 hp h0 hsum
  refine ⟨h, ?_⟩
  rw [h]
  exact sum_map_store_member rq.sum_exec_runtime rq.curr (N * d) ts hts hmem

/-- C11, amended, on the queue of the single running task 1 with quantum 2:
five ticks, 10 apart; the totals are taken over tasks 1 and 2. -/
theorem ticks_accumulate_exactly_witness :
    (tick_seq one_task_rq (task_ptr 1) (tick_clocks 0 10 5)).sum_exec_runtime =
        store one_task_rq.sum_exec_runtime one_task_rq.curr
          (one_task_rq.sum_exec_runtime one_task_rq.curr + 5 * 10) ∧
      ([task_ptr 1, task_ptr 2].map
        (tick_seq one_task_rq (task_ptr 1) (tick_clocks 0 10 5)).sum_exec_runtime).sum =
        ([task_ptr 1, task_ptr 2].map one_task_rq.sum_exec_runtime).sum + 5 * 10 :=
  ticks_accumulate_exactly one_task_rq (task_ptr 1) 0 10 5 [task_ptr 1, task_ptr 2]
    (by decide) (by decide) (by decide) (by decide) (by decide) (by decide) (by decide)

/-! ## The load-balance iterator -/

theorem list_entry_run_list (p : Ptr) : list_entry (run_list p) = p := by
  simp [list_entry, run_list]

theorem map_list_entry_links (q : List Nat) : (links q).map list_entry = q.map task_ptr := by
  simp [links, List.map_map, Function.comp, list_entry_run_list]

theorem walk_prev_length (pv : Ptr → Ptr) : ∀ (m : Nat) (c : Ptr), (walk_prev pv c m).length = m
  | 0, _ => rfl
  | m + 1, c => by
    show (walk_prev pv (pv c) m).length + 1 = m + 1
    rw [walk_prev_length pv m]

theorem walk_prev_snoc (pv : Ptr → Ptr) :
    ∀ (m : Nat) (c : Ptr), walk_prev pv c (m + 1) = walk_prev pv c m ++ [cursor_after pv c m]
  | 0, _ => rfl
  | m + 1, c => by
    show c :: walk_prev pv (pv c) (m + 1) = c :: (walk_prev pv (pv c) m ++ _)
    rw [walk_prev_snoc pv m (pv c)]
    rfl

/-- Walking back from the end of a segment meets its links in reverse order
and then its start. -/
theorem Linked.walk_back {nx pv : Ptr → Ptr} (l : List Ptr) :
    ∀ (a x : Ptr), Linked nx pv a l x →
      walk_prev pv (pv x) (l.length + 1) = l.reverse ++ [a] := by
  induction l using List.reverseRecOn with
  | nil =>
    intro a x h
    show [pv x] = [a]
    rw [h.2]
  | append_singleton l1 y ih =>
    intro a x h
    obtain ⟨h1, h2⟩ := Linked.append_cons.1 h
    have hy : pv x = y := h2.2
    rw [hy, List.length_append, List.length_singleton, List.reverse_append,
      List.reverse_singleton, List.singleton_append, List.cons_append]
    show y :: walk_prev pv (pv y) (l1.length + 1) = _
    rw [ih a y h1]

theorem Linked.walk_back_links {nx pv : Ptr → Ptr} {l : List Ptr} {a x : Ptr}
    (h : Linked nx pv a l x) :
    walk_prev pv (pv x) l.length = l.reverse ∧ cursor_after pv (pv x) l.length = a := by
  have h1 := Linked.walk_back l a x h
  rw [walk_prev_snoc] at h1
  have hlen : (walk_prev pv (pv x) l.length).length = l.reverse.length := by
    rw [walk_prev_length, List.length_reverse]
  obtain ⟨e1, e2⟩ := List.append_inj h1 hlen
  exact ⟨e1, by simpa using e2⟩

/-- Walking back from a member of a list meets the member and then the links
before it, in reverse order. -/
theorem Linked.walk_back_from {nx pv : Ptr → Ptr} {l1 l2 : List Ptr} {a x b : Ptr}
    (h : Linked nx pv a (l1 ++ x :: l2) b) :
    walk_prev pv x (l1.length + 1) = x :: l1.reverse := by
  obtain ⟨h1, _⟩ := Linked.append_cons.1 h
  show x :: walk_prev pv (pv x) l1.length = _
  rw [(Linked.walk_back_links h1).1]

theorem lb_nexts_spec : ∀ (m : Nat) (rq : Rq),
    (lb_nexts rq m).1 = (walk_prev rq.prev rq.other_rr_load_balance_curr m).map list_entry ∧
      (lb_nexts rq m).2 = { rq with
        other_rr_load_balance_curr := cursor_after rq.prev rq.other_rr_load_balance_curr m }
  | 0, _ => ⟨rfl, rfl⟩
  | m + 1, rq => by
    obtain ⟨i1, i2⟩ := lb_nexts_spec m (load_balance_next_other_rr rq).2
    refine ⟨?_, ?_⟩
    · show list_entry rq.other_rr_load_balance_curr ::
        (lb_nexts (load_balance_next_other_rr rq).2 m).1 = _
      rw [i1]
      rfl
    · show (lb_nexts (load_balance_next_other_rr rq).2 m).2 = _
      rw [i2]
      rfl

theorem lb_pass_spec (m : Nat) (rq : Rq) :
    (lb_pass rq (m + 1)).1 = (walk_prev rq.prev (rq.prev queue_head) (m + 1)).map list_entry ∧
      (lb_pass rq (m + 1)).2 = { rq with
        other_rr_load_balance_head := queue_head
        other_rr_load_balance_curr := cursor_after rq.prev (rq.prev queue_head) (m + 1) } := by
  obtain ⟨i1, i2⟩ := lb_nexts_spec m (load_balance_start_other_rr rq).2
  refine ⟨?_, ?_⟩
  · show list_entry (rq.prev queue_head) :: (lb_nexts (load_balance_start_other_rr rq).2 m).1 = _
    rw [i1]
    rfl
  · show (lb_nexts (load_balance_start_other_rr rq).2 m).2 = _
    rw [i2]
    rfl

theorem task_ptr_injective {t u : Nat} (h : task_ptr t = task_ptr u) : t = u := by
  simp only [task_ptr, Ptr.mk.injEq, Base.task.injEq] at h
  exact h.1

theorem update_curr_lb_curr (rq : Rq) :
    (update_curr_other_rr rq).other_rr_load_balance_curr = rq.other_rr_load_balance_curr := by
  by_cases h : rq.task_has_other_rr_policy rq.curr = false <;> simp [update_curr_other_rr, h]

theorem dequeue_lb_curr (rq : Rq) (p : Ptr) :
    (dequeue_task_other_rr rq p).other_rr_load_balance_curr = rq.other_rr_load_balance_curr := by
  unfold dequeue_task_other_rr list_del __list_del
  exact update_curr_lb_curr rq

theorem erase_second_of_split {A B : List Nat} {c e : Nat} (hnd : (A ++ c :: e :: B).Nodup) :
    (A ++ c :: e :: B).erase e = A ++ c :: B := by
  have hA : e ∉ A := by
    intro hm
    exact (List.nodup_append.1 hnd).2.2 hm (by simp)
  have hce : c ≠ e := by
    have h2 := (List.nodup_append.1 hnd).2.1
    intro e1
    exact (List.nodup_cons.1 h2).1 (by rw [e1]; exact List.mem_cons_self _ _)
  rw [List.erase_append_right _ hA, List.erase_cons_tail (by simpa using hce),
    List.erase_cons_head]

/-- The pass with a removal, for a queue split around the removed task `e` and
the task `c` before it: the calls return the whole queue in reverse order. -/
theorem lb_pass_removing_split (rq : Rq) (A B : List Nat) (c e : Nat)
    (h : IsQueue rq (A ++ c :: e :: B)) :
    lb_pass_removing rq (B.length + 1) (A.length + 1) =
      ((A ++ c :: e :: B).reverse).map task_ptr := by
  obtain ⟨f1, f2⟩ := lb_pass_spec B.length rq
  have hl : Linked rq.next rq.prev queue_head
      (links A ++ run_list (task_ptr c) :: run_list (task_ptr e) :: links B) queue_head := by
    have := h.2
    simp only [links, List.map_append, List.map_cons] at this
    exact this
  have hl1 : Linked rq.next rq.prev queue_head
      ((links A ++ [run_list (task_ptr c)]) ++ run_list (task_ptr e) :: links B) queue_head := by
    rw [List.append_assoc]
    exact hl
  obtain ⟨_, hB⟩ := Linked.append_cons.1 hl1
  obtain ⟨_, hcB⟩ := Linked.append_cons.1 hl
  have hlenB : (links B).length = B.length := by simp [links]
  have hlenA : (links A).length = A.length := by simp [links]
  have hwalk : walk_prev rq.prev (rq.prev queue_head) (B.length + 1) =
      (links B).reverse ++ [run_list (task_ptr e)] := by
    rw [← hlenB]
    exact Linked.walk_back (links B) _ _ hB
  have hcur : cursor_after rq.prev (rq.prev queue_head) (B.length + 1) =
      run_list (task_ptr c) := by
    have := (Linked.walk_back_links hcB).2
    simp only [List.length_cons, hlenB] at this
    exact this
  have hfirst : (lb_pass rq (B.length + 1)).1 = B.reverse.map task_ptr ++ [task_ptr e] := by
    rw [f1, hwalk, List.map_append, List.map_reverse, map_list_entry_links, List.map_reverse]
    simp [list_entry_run_list]
  have hq1 : IsQueue (lb_pass rq (B.length + 1)).2 (A ++ c :: e :: B) := by
    rw [f2]
    exact ⟨h.1, h.2⟩
  have hq2 : IsQueue (dequeue_task_other_rr (lb_pass rq (B.length + 1)).2 (task_ptr e))
      (A ++ c :: B) := by
    have := dequeue_isQueue (t := e) hq1 (by simp)
    rw [erase_second_of_split h.1] at this
    exact this
  have hl2 : Linked (dequeue_task_other_rr (lb_pass rq (B.length + 1)).2 (task_ptr e)).next
      (dequeue_task_other_rr (lb_pass rq (B.length + 1)).2 (task_ptr e)).prev queue_head
      (links A ++ run_list (task_ptr c) :: links B) queue_head := by
    have := hq2.2
    simp only [links, List.map_append, List.map_cons] at this
    exact this
  have hcur2 : (dequeue_task_other_rr (lb_pass rq (B.length + 1)).2
      (task_ptr e)).other_rr_load_balance_curr = run_list (task_ptr c) := by
    rw [dequeue_lb_curr, f2]
    exact hcur
  obtain ⟨g1, _⟩ := lb_nexts_spec (A.length + 1)
    (dequeue_task_other_rr (lb_pass rq (B.length + 1)).2 (task_ptr e))
  have hrest : (lb_nexts (dequeue_task_other_rr (lb_pass rq (B.length + 1)).2 (task_ptr e))
      (A.length + 1)).1 = task_ptr c :: A.reverse.map task_ptr := by
    rw [g1, hcur2, ← hlenA, Linked.walk_back_from hl2, List.map_cons, list_entry_run_list,
      List.map_reverse, map_list_entry_links, List.map_reverse]
  unfold lb_pass_removing
  simp only [hfirst, List.getLast?_concat]
  rw [hrest]
  simp

theorem split_from_end (q : List Nat) (k : Nat) (hk : 1 ≤ k) (hkn : k < q.length) :
    ∃ A c e B, q = A ++ c :: e :: B ∧ B.length + 1 = k ∧ A.length + 1 = q.length - k := by
  have hlen : (q.drop (q.length - k - 1)).length = k + 1 := by
    rw [List.length_drop]
    omega
  have hsplit := (List.take_append_drop (q.length - k - 1) q).symm
  have htake : (q.take (q.length - k - 1)).length = q.length - k - 1 := by
    rw [List.length_take]
    omega
  rcases hd : q.drop (q.length - k - 1) with _ | ⟨c, _ | ⟨e, B⟩⟩
  · rw [hd] at hlen
    simp at hlen
  · rw [hd] at hlen
    simp at hlen
    omega
  · rw [hd] at hlen hsplit
    simp only [List.length_cons] at hlen
    exact ⟨q.take (q.length - k - 1), c, e, B, hsplit, by omega, by omega⟩

/-- C12.  On a run queue whose collection `q` holds `n ≥ 1` tasks, one call of
`load_balance_start_other_rr` followed by `n - 1` calls of
`load_balance_next_other_rr` returns the tasks of `q` in reverse order, that
is tail first and head last: every task of the queue once and nothing else.
The call of Start returns the tail task. -/
theorem load_balance_pass_reverse_order (rq : Rq) (q : List Nat) (hq : IsQueue rq q)
    (hn : 1 ≤ q.length) :
    (lb_pass rq q.length).1 = q.reverse.map task_ptr ∧
      (lb_pass rq q.length).1.Nodup ∧
      (lb_pass rq q.length).1.Perm (q.map task_ptr) ∧
      some (load_balance_start_other_rr rq).1 = (q.map task_ptr).getLast? := by
  have hlen : (links q).length = q.length := by simp [links]
  have hres : (lb_pass rq q.length).1 = q.reverse.map task_ptr := by
    obtain ⟨m, hm⟩ : ∃ m, q.length = m + 1 := ⟨q.length - 1, by omega⟩
    rw [hm, (lb_pass_spec m rq).1, ← hm, ← hlen, (Linked.walk_back_links hq.2).1,
      List.map_reverse, map_list_entry_links, List.map_reverse]
  refine ⟨hres, ?_, ?_, ?_⟩
  · rw [hres]
    exact List.Nodup.map (fun _ _ e => task_ptr_injective e) (List.nodup_reverse.2 hq.1)
  · rw [hres, List.map_reverse]
    exact List.reverse_perm _
  · rcases List.eq_nil_or_concat q with h0 | ⟨q1, t, h1⟩
    · rw [h0] at hn
      simp at hn
    · have hp : rq.prev queue_head = run_list (task_ptr t) := by
        rw [Linked.prev_end hq.2, h1]
        simp [links]
      show some (list_entry (rq.prev queue_head)) = _
      rw [hp, list_entry_run_list, h1]
      simp

/-- C12 on the queue of tasks 1 to 5: the five calls return 5, 4, 3, 2, 1. -/
theorem load_balance_pass_reverse_order_witness :
    (lb_pass five_task_rq [1, 2, 3, 4, 5].length).1 = [1, 2, 3, 4, 5].reverse.map task_ptr ∧
      (lb_pass five_task_rq [1, 2, 3, 4, 5].length).1.Nodup ∧
      (lb_pass five_task_rq [1, 2, 3, 4, 5].length).1.Perm ([1, 2, 3, 4, 5].map task_ptr) ∧
      some (load_balance_start_other_rr five_task_rq).1 =
        ([1, 2, 3, 4, 5].map task_ptr).getLast? :=
  load_balance_pass_reverse_order five_task_rq [1, 2, 3, 4, 5] (by decide) (by decide)

/-- C13.  On a run queue whose collection `q` holds `n` tasks, let the task
returned by call number `k` of a pass, `1 ≤ k < n`, be dequeued before call
number `k + 1`.  The calls of the pass, the `k` before the removal and the
`n - k` after it, return what the `n` calls of a pass without removal return:
the tasks of `q` in reverse order, every task present at Start once. -/
theorem load_balance_pass_dequeue_safe (rq : Rq) (q : List Nat) (k : Nat) (hq : IsQueue rq q)
    (hk : 1 ≤ k) (hkn : k < q.length) :
    lb_pass_removing rq k (q.length - k) = (lb_pass rq q.length).1 ∧
      lb_pass_removing rq k (q.length - k) = q.reverse.map task_ptr ∧
      (lb_pass_removing rq k (q.length - k)).Nodup := by
  have hlen : (links q).length = q.length := by simp [links]
  have hfull : (lb_pass rq q.length).1 = q.reverse.map task_ptr := by
    obtain ⟨m, hm⟩ : ∃ m, q.length = m + 1 := ⟨q.length - 1, by omega⟩
    rw [hm, (lb_pass_spec m rq).1, ← hm, ← hlen, (Linked.walk_back_links hq.2).1,
      List.map_reverse, map_list_entry_links, List.map_reverse]
  have hrem : lb_pass_removing rq k (q.length - k) = q.reverse.map task_ptr := by
    obtain ⟨A, c, e, B, hsplit, hB, hA⟩ := split_from_end q k hk hkn
    rw [← hA, ← hB]
    rw [hsplit] at hq
    rw [hsplit]
    exact lb_pass_removing_split rq A B c e hq
  refine ⟨by rw [hrem, hfull], hrem, ?_⟩
  rw [hrem]
  exact List.Nodup.map (fun _ _ e => task_ptr_injective e) (List.nodup_reverse.2 hq.1)

/-- C13 on the queue of tasks 1 to 5 with the task returned by the third call
dequeued before the fourth. -/
theorem load_balance_pass_dequeue_safe_witness :
    lb_pass_removing five_task_rq 3 ([1, 2, 3, 4, 5].length - 3) =
        (lb_pass five_task_rq [1, 2, 3, 4, 5].length).1 ∧
      lb_pass_removing five_task_rq 3 ([1, 2, 3, 4, 5].length - 3) =
        [1, 2, 3, 4, 5].reverse.map task_ptr ∧
      (lb_pass_removing five_task_rq 3 ([1, 2, 3, 4, 5].length - 3)).Nodup :=
  load_balance_pass_dequeue_safe five_task_rq [1, 2, 3, 4, 5] 3 (by decide) (by decide)
    (by decide)

/-! ## Requeue, Yield and PutPrev -/

/-- C14.  Requeue of a member `t` of the collection `q`: the collection
becomes `q` with `t` erased, followed by `t`; the erasure filters out exactly
`t`, so the other tasks keep their order.  `nr_running`, the accounting fields
of every task and the charges made are what they were. -/
theorem requeue_moves_to_tail (rq : Rq) (q : List Nat) (t : Nat)
    (hq : IsQueue rq q) (ht : t ∈ q) :
    IsQueue (requeue_task_other_rr rq (task_ptr t)) (q.erase t ++ [t]) ∧
      q.erase t = q.filter (fun u => u != t) ∧
      (requeue_task_other_rr rq (task_ptr t)).nr_running = rq.nr_running ∧
      (requeue_task_other_rr rq (task_ptr t)).sum_exec_runtime = rq.sum_exec_runtime ∧
      (requeue_task_other_rr rq (task_ptr t)).exec_start = rq.exec_start ∧
      (requeue_task_other_rr rq (task_ptr t)).exec_max = rq.exec_max ∧
      (requeue_task_other_rr rq (task_ptr t)).charged = rq.charged :=
  ⟨requeue_isQueue hq ht, List.Nodup.erase_eq_filter hq.1 t, rfl, rfl, rfl, rfl, rfl⟩

/-- C14 on the queue of tasks 1 to 5: task 2 is requeued. -/
theorem requeue_moves_to_tail_witness :
    IsQueue (requeue_task_other_rr five_task_rq (task_ptr 2)) ([1, 2, 3, 4, 5].erase 2 ++ [2]) ∧
      [1, 2, 3, 4, 5].erase 2 = [1, 2, 3, 4, 5].filter (fun u => u != 2) ∧
      (requeue_task_other_rr five_task_rq (task_ptr 2)).nr_running = five_task_rq.nr_running ∧
      (requeue_task_other_rr five_task_rq (task_ptr 2)).sum_exec_runtime =
        five_task_rq.sum_exec_runtime ∧
      (requeue_task_other_rr five_task_rq (task_ptr 2)).exec_start = five_task_rq.exec_start ∧
      (requeue_task_other_rr five_task_rq (task_ptr 2)).exec_max = five_task_rq.exec_max ∧
      (requeue_task_other_rr five_task_rq (task_ptr 2)).charged = five_task_rq.charged :=
  requeue_moves_to_tail five_task_rq [1, 2, 3, 4, 5] 2 (by decide) (by decide)

/-- C15.  `yield_task_other_rr` requeues the list head in place of the current
task: whatever the run queue, after the call the tail link of the list,
`queue.prev`, is the member `other_rr_run_list` of a task structure imagined at
the address of the list head, which is the link of no task.  The heap then
represents no collection of tasks `q` at all, in particular none with the
current task at the tail. -/
theorem yield_requeues_the_list_head (rq : Rq) (q : List Nat) :
    (yield_task_other_rr rq).prev queue_head = run_list queue_head ∧
      ¬ IsQueue (yield_task_other_rr rq) q := by
  have hprev : (yield_task_other_rr rq).prev queue_head = run_list queue_head := by
    have hne : queue_head ≠ run_list queue_head := by decide
    unfold yield_task_other_rr requeue_task_other_rr list_move_tail list_add_tail __list_add
    simp only []
    rw [store_other _ _ hne, store_same]
  refine ⟨hprev, ?_⟩
  intro h
  have hmem := getLastD_mem (links q) queue_head
  rw [← Linked.prev_end h.2, hprev] at hmem
  rcases List.mem_cons.1 hmem with e | hm
  · exact absurd e (by decide)
  · obtain ⟨u, _, e⟩ := List.mem_map.1 hm
    simp [run_list, task_ptr, queue_head] at e

/-- C16.  PutPrev of the current task, a task of this class, on a run queue
whose collection is `q`: the accounting step adds the clamped delta to the
accumulated runtime of the task (a `u64` sum, the plain sum when it does not
overflow), then `exec_start` of the task is set to 0.  The links, the
collection and `nr_running` are what they were. -/
theorem put_prev_accounts_and_clears (rq : Rq) (q : List Nat) (hq : IsQueue rq q)
    (hp : rq.task_has_other_rr_policy rq.curr = true) :
    (put_prev_task_other_rr rq rq.curr).sum_exec_runtime rq.curr =
        (rq.sum_exec_runtime rq.curr + delta_exec rq.clock (rq.exec_start rq.curr)) % U64 ∧
      (rq.sum_exec_runtime rq.curr + delta_exec rq.clock (rq.exec_start rq.curr) < U64 →
        (put_prev_task_other_rr rq rq.curr).sum_exec_runtime rq.curr =
          rq.sum_exec_runtime rq.curr + delta_exec rq.clock (rq.exec_start rq.curr)) ∧
      (put_prev_task_other_rr rq rq.curr).exec_start rq.curr = 0 ∧
      IsQueue (put_prev_task_other_rr rq rq.curr) q ∧
      (put_prev_task_other_rr rq rq.curr).next = rq.next ∧
      (put_prev_task_other_rr rq rq.curr).prev = rq.prev ∧
      (put_prev_task_other_rr rq rq.curr).nr_running = rq.nr_running := by
  have hsum : (put_prev_task_other_rr rq rq.curr).sum_exec_runtime rq.curr =
      (rq.sum_exec_runtime rq.curr + delta_exec rq.clock (rq.exec_start rq.curr)) % U64 := by
    show (update_curr_other_rr rq).sum_exec_runtime rq.curr = _
    simp [update_curr_other_rr, hp, store_same]
  have hnext : (put_prev_task_other_rr rq rq.curr).next = rq.next := update_curr_next rq
  have hprev : (put_prev_task_other_rr rq rq.curr).prev = rq.prev := update_curr_prev rq
  refine ⟨hsum, ?_, ?_, ⟨hq.1, ?_⟩, hnext, hprev, update_curr_nr_running rq⟩
  · intro hlt
    rw [hsum, Nat.mod_eq_of_lt hlt]
  · show store _ rq.curr 0 rq.curr = 0
    exact store_same _ _ _
  · rw [hnext, hprev]
    exact hq.2

/-- C16 at a concrete call: task 1 is on the queue and running since clock 100
with 7 run so far; at clock 130 it stops. -/
theorem put_prev_accounts_and_clears_witness :
    (put_prev_task_other_rr stopping_rq stopping_rq.curr).sum_exec_runtime stopping_rq.curr =
        (stopping_rq.sum_exec_runtime stopping_rq.curr +
          delta_exec stopping_rq.clock (stopping_rq.exec_start stopping_rq.curr)) % U64 ∧
      (stopping_rq.sum_exec_runtime stopping_rq.curr +
          delta_exec stopping_rq.clock (stopping_rq.exec_start stopping_rq.curr) < U64 →
        (put_prev_task_other_rr stopping_rq stopping_rq.curr).sum_exec_runtime stopping_rq.curr =
          stopping_rq.sum_exec_runtime stopping_rq.curr +
            delta_exec stopping_rq.clock (stopping_rq.exec_start stopping_rq.curr)) ∧
      (put_prev_task_other_rr stopping_rq stopping_rq.curr).exec_start stopping_rq.curr = 0 ∧
      IsQueue (put_prev_task_other_rr stopping_rq stopping_rq.curr) [1, 2] ∧
      (put_prev_task_other_rr stopping_rq stopping_rq.curr).next = stopping_rq.next ∧
      (put_prev_task_other_rr stopping_rq stopping_rq.curr).prev = stopping_rq.prev ∧
      (put_prev_task_other_rr stopping_rq stopping_rq.curr).nr_running =
        stopping_rq.nr_running :=
  put_prev_accounts_and_clears stopping_rq [1, 2] (by decide) (by decide)

/-- C17.  Both calls of the load-balance iterator return the run queue with,
at most, the two cursor fields changed: every other field of the run queue and
every field of every task is what it was, and a collection `q` is represented
after the call exactly when it was before. -/
theorem load_balance_iterator_frame (rq : Rq) (q : List Nat) :
    (load_balance_start_other_rr rq).2 =
        { rq with
          other_rr_load_balance_head :=
            (load_balance_start_other_rr rq).2.other_rr_load_balance_head
          other_rr_load_balance_curr :=
            (load_balance_start_other_rr rq).2.other_rr_load_balance_curr } ∧
      (load_balance_next_other_rr rq).2 =
        { rq with
          other_rr_load_balance_head :=
            (load_balance_next_other_rr rq).2.other_rr_load_balance_head
          other_rr_load_balance_curr :=
            (load_balance_next_other_rr rq).2.other_rr_load_balance_curr } ∧
      (IsQueue (load_balance_start_other_rr rq).2 q ↔ IsQueue rq q) ∧
      (IsQueue (load_balance_next_other_rr rq).2 q ↔ IsQueue rq q) ∧
      (load_balance_start_other_rr rq).2.nr_running = rq.nr_running ∧
      (load_balance_next_other_rr rq).2.nr_running = rq.nr_running :=
  ⟨rfl, rfl, Iff.rfl, Iff.rfl, rfl, rfl⟩

/-! ## Single ticks and the time slice -/

/-- C18.  With a non-zero quantum and the guard member non-zero, the tick that
takes the time slice of the task from 1 to 0 does nothing else: the slice is 0
after the tick and not refilled, the need-resched flag of every task and the
links of the queue are what they were. -/
theorem tick_reaching_zero_does_not_refill (rq : Rq) (p : Ptr)
    (hq : rq.other_rr_time_slice ≠ 0) (hg : rq.tast_time_slice p ≠ 0)
    (hs : rq.task_time_slice p = 1) :
    (task_tick_other_rr rq p).task_time_slice p = 0 ∧
      (task_tick_other_rr rq p).task_time_slice p ≠ rq.other_rr_time_slice ∧
      (task_tick_other_rr rq p).need_resched = rq.need_resched ∧
      (task_tick_other_rr rq p).next = rq.next ∧
      (task_tick_other_rr rq p).prev = rq.prev := by
  have hz : (task_tick_other_rr rq p).task_time_slice p = 0 := by
    rw [task_tick_running rq p hq hg]
    show store _ p _ p = 0
    rw [store_same, update_curr_task_time_slice, hs]
    decide
  rw [hz, task_tick_running rq p hq hg]
  exact ⟨rfl, Ne.symm hq, update_curr_need_resched rq, update_curr_next rq, update_curr_prev rq⟩

/-- C18 with task 1 alone on the queue, quantum 2, a slice of 1 and the guard
member at 1: after the tick the slice is 0, the flag is clear and the queue is
untouched. -/
theorem tick_reaching_zero_does_not_refill_witness :
    (task_tick_other_rr last_tick_rq (task_ptr 1)).task_time_slice (task_ptr 1) = 0 ∧
      (task_tick_other_rr last_tick_rq (task_ptr 1)).task_time_slice (task_ptr 1) ≠
        last_tick_rq.other_rr_time_slice ∧
      (task_tick_other_rr last_tick_rq (task_ptr 1)).need_resched = last_tick_rq.need_resched ∧
      (task_tick_other_rr last_tick_rq (task_ptr 1)).next = last_tick_rq.next ∧
      (task_tick_other_rr last_tick_rq (task_ptr 1)).prev = last_tick_rq.prev :=
  tick_reaching_zero_does_not_refill last_tick_rq (task_ptr 1) (by decide) (by decide)
    (by decide)

theorem delta_exec_self (c : Nat) : delta_exec c c = 0 := by
  simp [delta_exec, U64]

/-- A second accounting step at the same clock value changes no field; it
charges 0 to the running task when that task has the policy of the class. -/
theorem update_curr_idem (rq : Rq) :
    update_curr_other_rr (update_curr_other_rr rq) =
      { update_curr_other_rr rq with
        charged := (update_curr_other_rr rq).charged ++
          (if rq.task_has_other_rr_policy rq.curr = true then [(rq.curr, 0)] else []) } := by
  by_cases hp : rq.task_has_other_rr_policy rq.curr = true
  · simp [update_curr_other_rr, hp, store_same, store_store, delta_exec_self]
  · simp [update_curr_other_rr, hp]

theorem sum_charged_append_zero (l : List (Ptr × Nat)) (c : Ptr) (b : Bool) :
    ((l ++ (if b = true then [(c, 0)] else [])).map Prod.snd).sum = (l.map Prod.snd).sum := by
  cases b <;> simp

/-- The accounting step reads the clock, the running task and its accounting
fields only. -/
theorem update_curr_congr (a b : Rq) (h1 : a.clock = b.clock) (h2 : a.curr = b.curr)
    (h3 : a.task_has_other_rr_policy = b.task_has_other_rr_policy)
    (h4 : a.exec_start = b.exec_start) (h5 : a.sum_exec_runtime = b.sum_exec_runtime)
    (h6 : a.exec_max = b.exec_max) (h7 : a.charged = b.charged) :
    (update_curr_other_rr a).sum_exec_runtime = (update_curr_other_rr b).sum_exec_runtime ∧
      (update_curr_other_rr a).exec_start = (update_curr_other_rr b).exec_start ∧
      (update_curr_other_rr a).exec_max = (update_curr_other_rr b).exec_max ∧
      (update_curr_other_rr a).charged = (update_curr_other_rr b).charged := by
  by_cases hp : b.task_has_other_rr_policy b.curr = true
  · simp [update_curr_other_rr, h1, h2, h3, h4, h5, h6, h7, hp]
  · simp [update_curr_other_rr, h1, h2, h3, h4, h5, h6, h7, hp]

/-- Dequeue leaves the clock, the running task and the accounting fields as its
accounting step leaves them. -/
theorem dequeue_accounting_fields (rq : Rq) (p : Ptr) :
    (dequeue_task_other_rr rq p).clock = (update_curr_other_rr rq).clock ∧
      (dequeue_task_other_rr rq p).curr = (update_curr_other_rr rq).curr ∧
      (dequeue_task_other_rr rq p).task_has_other_rr_policy =
        (update_curr_other_rr rq).task_has_other_rr_policy ∧
      (dequeue_task_other_rr rq p).exec_start = (update_curr_other_rr rq).exec_start ∧
      (dequeue_task_other_rr rq p).sum_exec_runtime =
        (update_curr_other_rr rq).sum_exec_runtime ∧
      (dequeue_task_other_rr rq p).exec_max = (update_curr_other_rr rq).exec_max ∧
      (dequeue_task_other_rr rq p).charged = (update_curr_other_rr rq).charged := by
  unfold dequeue_task_other_rr list_del __list_del
  exact ⟨rfl, rfl, rfl, rfl, rfl, rfl, rfl⟩

/-- C20.  Two accounting steps in a row at one clock value leave every field of
the run queue and of the tasks as one step leaves it; the second step computes
a delta of 0 and its only trace is that 0 is charged to the running task of the
class.  Hence after a Dequeue of `p` followed at once by an Enqueue of `p1`,
accumulated runtime, `exec_start` and `exec_max` of every task are those after
a single accounting step, and the amounts charged add up to the same total. -/
theorem accounting_idempotent_at_fixed_clock (rq : Rq) (p p1 : Ptr) :
    update_curr_other_rr (update_curr_other_rr rq) =
        { update_curr_other_rr rq with
          charged := (update_curr_other_rr rq).charged ++
            (if rq.task_has_other_rr_policy rq.curr = true then [(rq.curr, 0)] else []) } ∧
      (enqueue_task_other_rr (dequeue_task_other_rr rq p) p1).sum_exec_runtime =
        (update_curr_other_rr rq).sum_exec_runtime ∧
      (enqueue_task_other_rr (dequeue_task_other_rr rq p) p1).exec_start =
        (update_curr_other_rr rq).exec_start ∧
      (enqueue_task_other_rr (dequeue_task_other_rr rq p) p1).exec_max =
        (update_curr_other_rr rq).exec_max ∧
      (((enqueue_task_other_rr (dequeue_task_other_rr rq p) p1).charged).map Prod.snd).sum =
        (((update_curr_other_rr rq).charged).map Prod.snd).sum := by
  have hidem := update_curr_idem rq
  obtain ⟨d1, d2, d3, d4, d5, d6, d7⟩ := dequeue_accounting_fields rq p
  obtain ⟨c1, c2, c3, c4⟩ := update_curr_congr (dequeue_task_other_rr rq p)
    (update_curr_other_rr rq) d1 d2 d3 d4 d5 d6 d7
  have e1 : (enqueue_task_other_rr (dequeue_task_other_rr rq p) p1).sum_exec_runtime =
      (update_curr_other_rr (update_curr_other_rr rq)).sum_exec_runtime := c1
  have e2 : (enqueue_task_other_rr (dequeue_task_other_rr rq p) p1).exec_start =
      (update_curr_other_rr (update_curr_other_rr rq)).exec_start := c2
  have e3 : (enqueue_task_other_rr (dequeue_task_other_rr rq p) p1).exec_max =
      (update_curr_other_rr (update_curr_other_rr rq)).exec_max := c3
  have e4 : (enqueue_task_other_rr (dequeue_task_other_rr rq p) p1).charged =
      (update_curr_other_rr (update_curr_other_rr rq)).charged := c4
  refine ⟨hidem, ?_, ?_, ?_, ?_⟩
  · rw [e1, hidem]
  · rw [e2, hidem]
  · rw [e3, hidem]
  · rw [e4, hidem]
    exact sum_charged_append_zero _ _ _

end OtherRR
